import Mathlib

/-!
Verification of the work-efficient GPU scan / stream-compaction implementation
in `src/stream_compaction/efficient.cu` (namespace `StreamCompaction::Efficient`).

Modelling choices:
* 32-bit signed integers with wraparound addition are modelled as `ZMod (2^32)`
  (addition there is exactly 32-bit two's-complement addition; the all-zero bit
  pattern corresponds to the value `0`).
* A device buffer is a total function `Nat → V`; freshly `cudaMalloc`-ed memory
  has *arbitrary* contents, so each driver takes the initial contents of every
  buffer it allocates as an explicit parameter.
* One kernel launch is a pure state transformation.  Inside a block, every
  `__syncthreads`-delimited phase is a simultaneous update of the array (all
  reads see the pre-phase contents); distinct active threads of one phase touch
  pairwise disjoint cells, so this is the sequentially consistent semantics of
  the barrier-synchronised code.
* The per-block group capacity (`Common::block_size_efficient`, declared outside
  `src/`) is an explicit parameter `B`; per the spec it is a power of two.
-/

/-- The value type: 32-bit machine integers with wraparound arithmetic. -/
abbrev V : Type := ZMod (2 ^ 32)

/-- Modelled from the spec: `ilog2ceil n = ⌈log₂ n⌉` (the helper is declared in
a header outside `src/`); `nPad = 2 ^ ilog2ceil n` is the next power of two.
Structural recursion on a fuel argument so that the kernel can evaluate it. -/
def ilog2ceilAux : Nat → Nat → Nat
  | 0, _ => 0
  | fuel + 1, n => if n ≤ 1 then 0 else ilog2ceilAux fuel ((n + 1) / 2) + 1

/-- Modelled from the spec: ceiling base-2 logarithm, `ilog2ceil`. -/
def ilog2ceil (n : Nat) : Nat := ilog2ceilAux n n

/-- One device-resident buffer triple of a decomposition level:
`dev_idata[i]`, `dev_odata[i]`, `dev_buffer[i]` of `scan`
(named `dev_iIndices[i]`, `dev_oIndices[i]`, `dev_buffer[i]` in `compact`). -/
structure Lvl where
  idata : Nat → V
  odata : Nat → V
  buffer : Nat → V

instance : Inhabited Lvl := ⟨⟨fun _ => 0, fun _ => 0, fun _ => 0⟩⟩

/-- One upsweep phase (step `d`) of `kernScanInclusive` (efficient.cu:27-32):
every launched thread `id < n` with `id % 2^(d+1) == 0` adds
`idata[id + 2^d - 1]` into `idata[id + 2^(d+1) - 1]`.  Written per-cell: cell
`j` is the write target of the (unique) active thread `id = j+1-2^(d+1)` iff
`2^(d+1)` divides `j+1` and that thread exists (`id < n` and `id < g*B`). -/
def upsweepStep (g B n d : Nat) (a : Nat → V) : Nat → V :=
  fun j =>
    if (j + 1) % 2 ^ (d + 1) = 0 ∧ j + 1 - 2 ^ (d + 1) < min n (g * B) then
      a j + a (j - 2 ^ d)
    else a j

/-- The upsweep loop: phases `d = 0, 1, …, L-1` in order. -/
def upsweepRun (g B n : Nat) : Nat → (Nat → V) → (Nat → V)
  | 0, a => a
  | d + 1, a => upsweepStep g B n d (upsweepRun g B n d a)

/-- The capture-and-clear phase (efficient.cu:34-40): each thread with
`tid == bdim - 1 || id == n - 1` (and `id < n`) remembers `idata[id]` as its
`reduction_sum` and zeroes the slot.  This is the post-clear array; the
remembered values are read off the pre-clear array. -/
def clearLast (g B n : Nat) (a : Nat → V) : Nat → V :=
  fun j =>
    if j < min n (g * B) ∧ (j % B = B - 1 ∨ j = n - 1) then 0 else a j

/-- One downsweep phase (step `d`) of `kernScanInclusive` (efficient.cu:43-50):
each active thread `id` (same predicate as upsweep) swaps
`idata[id + 2^d - 1]` into a temporary, overwrites it with
`idata[id + 2^(d+1) - 1]`, and adds the temporary into the latter.  Per cell:
`j` is a left child (`(j+1) % 2^(d+1) = 2^d`) receiving the old parent value,
or a parent (`(j+1) % 2^(d+1) = 0`) accumulating its old left child. -/
def downsweepStep (g B n d : Nat) (a : Nat → V) : Nat → V :=
  fun j =>
    if (j + 1) % 2 ^ (d + 1) = 2 ^ d ∧ j + 1 - 2 ^ d < min n (g * B) then
      a (j + 2 ^ d)
    else if (j + 1) % 2 ^ (d + 1) = 0 ∧ j + 1 - 2 ^ (d + 1) < min n (g * B) then
      a j + a (j - 2 ^ d)
    else a j

/-- The downsweep loop: phases `d = L-1, L-2, …, 0` in order. -/
def downsweepRun (g B n : Nat) : Nat → (Nat → V) → (Nat → V)
  | 0, a => a
  | d + 1, a => downsweepRun g B n d (downsweepStep g B n d a)

/-- `kernScanInclusive` (efficient.cu:20-59), launched with `g` blocks of `B`
threads on an array of length `n`.  Returns the pair
(`odata` = per-block *inclusive* scan, `idata` = per-block *exclusive* scan):
upsweep, capture-and-clear, downsweep, then the exclusive→inclusive reshape
`odata[id] = reduction_sum` for the last thread of a segment and
`odata[id] = idata[id+1]` otherwise (efficient.cu:52-57). -/
def kernScanInclusive (g B n : Nat) (odata idata : Nat → V) :
    (Nat → V) × (Nat → V) :=
  let L := ilog2ceil (min n B)
  let u := upsweepRun g B n L idata
  let a := downsweepRun g B n L (clearLast g B n u)
  let o := fun j =>
    if j < min n (g * B) then
      if j % B = B - 1 ∨ j = n - 1 then u j else a (j + 1)
    else odata j
  (o, a)

/-- Modelled from the spec: `Common::kernExtractLastElementPerBlock` (declared
in common.h, outside `src/`; called at efficient.cu:106-107) writes, for every
group `b` of the level of length `n`, the last element of group `b` of `idata`
into `odata[b]`. -/
def kernExtractLastElementPerBlock (g B n : Nat) (odata idata : Nat → V) :
    Nat → V :=
  fun b =>
    if b < g ∧ b * B < n then idata (min ((b + 1) * B) n - 1) else odata b

/-- Modelled from the spec: `Common::kernShiftToExclusive` (outside `src/`;
called at efficient.cu:112-113) converts an inclusive scan to the exclusive
form by a one-position right shift with `0` inserted at position `0`. -/
def kernShiftToExclusive (g B n : Nat) (odata idata : Nat → V) : Nat → V :=
  fun j =>
    if j < min n (g * B) then
      if j = 0 then 0 else idata (j - 1)
    else odata j

/-- Modelled from the spec: `Common::kernAddOffsetPerBlock` (outside `src/`;
called at efficient.cu:116-118) broadcasts the next level's per-group offset
`offsets[j / B]` onto every element `j` of the level below, by addition. -/
def kernAddOffsetPerBlock (g B n : Nat) (obuf offsets idata : Nat → V) :
    Nat → V :=
  fun j =>
    if j < min n (g * B) then idata j + offsets (j / B) else obuf j

/-- Modelled from the spec: `Common::kernMapToBoolean` (outside `src/`; called
at efficient.cu:194): `bools[i] = 1` if `idata[i] != 0` else `0`. -/
def kernMapToBoolean (g B n : Nat) (bools idata : Nat → V) : Nat → V :=
  fun j =>
    if j < min n (g * B) then (if idata j ≠ 0 then 1 else 0) else bools j

/-- Modelled from the spec: `Common::kernScatter` (outside `src/`; called at
efficient.cu:219-220): for every `i < n` with `bools[i] == 1`, write
`idata[i]` into `odata[indices[i]]`.  The parallel writes are modelled as a
left fold; the destinations of distinct kept elements are distinct (proved
below), so the order is immaterial.  A value used as a C array index is read
as its unsigned 32-bit numeral `.val`. -/
def kernScatter (g B n : Nat) (odata idata bools indices : Nat → V) :
    Nat → V :=
  (List.range (min n (g * B))).foldl
    (fun o j =>
      if bools j = 1 then Function.update o (indices j).val (idata j) else o)
    odata

/-- The level-size computation of both drivers (efficient.cu:69-74, 154-159):
`array_sizes[0] = nPad`, and while `ceil(len / B) > 1` a further level of
length `ceil(len / B)` follows.  Structural recursion on a fuel argument
(the C loop terminates for `B ≥ 2`, and `nPad` iterations always suffice). -/
def levelSizesAux : Nat → Nat → Nat → List Nat
  | 0, _, len => [len]
  | fuel + 1, B, len =>
      len ::
        (if (len + B - 1) / B > 1 then levelSizesAux fuel B ((len + B - 1) / B)
         else [])

/-- The list `array_sizes` of per-level lengths for padded length `nPad`. -/
def levelSizes (B nPad : Nat) : List Nat := levelSizesAux nPad B nPad

/-- The shape invariant of a level-size list: every next length is the ceiling
quotient of the previous one, intermediate lengths exceed 1, and the last
length fits in a single group. -/
def SizesChain (B : Nat) : List Nat → Prop
  | [] => False
  | [s] => (s + B - 1) / B = 1
  | s :: s2 :: ss => s2 = (s + B - 1) / B ∧ 2 ≤ s2 ∧ SizesChain B (s2 :: ss)

/-- The head-level processing of the upward pass (loop body efficient.cu:99-104):
run `kernScanInclusive` on the level (grid `ceil(s/B)`), then copy the first
`s` cells of the scratch buffer back into the level's input buffer. -/
def upLevel (B s : Nat) (l : Lvl) : Lvl :=
  let g := (s + B - 1) / B
  let p := kernScanInclusive g B s l.buffer l.idata
  { idata := fun j => if j < s then p.1 j else p.2 j
    odata := l.odata
    buffer := p.1 }

/-- The upward pass (efficient.cu:99-109): process each level in turn; while a
further level exists, extract the per-group totals of the processed level into
the next level's input buffer (efficient.cu:105-108). -/
def upPass (B : Nat) : List Nat → List Lvl → List Lvl
  | s :: ss, l :: ls =>
    let l1 := upLevel B s l
    match ss, ls with
    | s2 :: ss2, l2 :: ls2 =>
        let g := (s + B - 1) / B
        let l2e : Lvl :=
          { l2 with
            idata := kernExtractLastElementPerBlock g B s l2.idata l1.idata }
        l1 :: upPass B (s2 :: ss2) (l2e :: ls2)
    | _, _ => [l1]
  | _, ls => ls

/-- The downward pass (efficient.cu:110-120), from the topmost level back to
level 0: process the deeper levels first; the final exclusive output of the
next level then supplies the per-group offsets added onto this level's scratch
buffer (the `i >= 1` branch, run as part of the next level's loop iteration),
and the shift to exclusive form produces this level's output. -/
def downPass (B : Nat) : List Nat → List Lvl → List Lvl
  | s :: ss, l :: ls =>
    let g := (s + B - 1) / B
    match ss, ls with
    | s2 :: ss2, l2 :: ls2 =>
        match downPass B (s2 :: ss2) (l2 :: ls2) with
        | l2d :: lsd =>
            let buf := kernAddOffsetPerBlock g B s l.buffer l2d.odata l.idata
            { idata := l.idata
              odata := kernShiftToExclusive g B s l.odata buf
              buffer := buf } :: l2d :: lsd
        | [] => []
    | _, _ =>
        [{ idata := l.idata
           odata := kernShiftToExclusive g B s l.odata l.buffer
           buffer := l.buffer }]
  | _, ls => ls

/-- The per-level buffers as allocated (`cudaMalloc`, contents arbitrary, taken
from the garbage parameter `mem`), with level 0's input buffer replaced by the
driver's initial copy-in. -/
def mkLvls (numLvls : Nat) (mem : Nat → Lvl) (idata0 : Nat → V) : List Lvl :=
  match (List.range numLvls).map mem with
  | [] => []
  | l :: ls => { l with idata := idata0 } :: ls

/-- The per-level buffers of `scan` at the moment of the first kernel launch
(efficient.cu:76-94): freshly allocated garbage except level 0's input buffer,
into which the caller's `n` elements are copied (efficient.cu:93).  The
remaining `nPad - n` cells of that buffer keep the malloc garbage — there is
no memset in `scan`. -/
def scanInitLvls (B n : Nat) (x : Nat → V) (mem : Nat → Lvl) : List Lvl :=
  mkLvls (levelSizes B (2 ^ ilog2ceil n)).length mem
    (fun j => if j < n then x j else (mem 0).idata j)

/-- `StreamCompaction::Efficient::scan` for `n > 0` (efficient.cu:66-125), with
`n` already a `Nat`: the upward and downward passes over the level hierarchy;
the result is the first `n` cells of level 0's exclusive output buffer
(efficient.cu:125). -/
def scanDev (B n : Nat) (x : Nat → V) (mem : Nat → Lvl) : List V :=
  let sizes := levelSizes B (2 ^ ilog2ceil n)
  let fin := downPass B sizes (upPass B sizes (scanInitLvls B n x mem))
  (List.range n).map fun j => fin.headI.odata j

/-- `StreamCompaction::Efficient::scan` (efficient.cu:64-138): returns
immediately (an empty result) if `n ≤ 0` (efficient.cu:65). -/
def scan (B : Nat) (n : Int) (x : Nat → V) (mem : Nat → Lvl) : List V :=
  if n ≤ 0 then [] else scanDev B n.toNat x mem

/-- The zero-padded work array of `compact` (efficient.cu:167-169: `cudaMemset`
to `0`, then copy in the `n` caller elements). -/
def paddedInput (n : Nat) (x : Nat → V) : Nat → V :=
  fun j => if j < n then x j else 0

/-- The mask buffer `dev_bools` of `compact` (efficient.cu:194). -/
def compactBools (B n : Nat) (x : Nat → V) (boolsInit : Nat → V) : Nat → V :=
  let nPad := 2 ^ ilog2ceil n
  kernMapToBoolean ((nPad + B - 1) / B) B nPad boolsInit (paddedInput n x)

/-- The destination-index buffer `dev_oIndices[0]` of `compact`: the multi-level
scan pipeline (efficient.cu:195-218, the same loops as in `scan`) run on the
mask. -/
def compactIndices (B n : Nat) (x : Nat → V) (mem : Nat → Lvl)
    (boolsInit : Nat → V) : Nat → V :=
  let nPad := 2 ^ ilog2ceil n
  let sizes := levelSizes B nPad
  let bools := compactBools B n x boolsInit
  let lvls := mkLvls sizes.length mem
    (fun j => if j < nPad then bools j else (mem 0).idata j)
  (downPass B sizes (upPass B sizes lvls)).headI.odata

/-- The signed 32-bit reading of a machine word, as returned to the host. -/
def toSigned (v : V) : Int :=
  if v.val < 2 ^ 31 then (v.val : Int) else (v.val : Int) - 2 ^ 32

/-- `StreamCompaction::Efficient::compact` (efficient.cu:149-258): returns `n`
itself with no output for `n ≤ 0` (efficient.cu:150); otherwise builds the
zero-padded work array and mask, scans the mask, scatters
(efficient.cu:219-220, grid `grid_sizes[0]`), copies the first `n` output
cells back, and returns `indices[n-1] + bools[n-1]` (efficient.cu:231-237). -/
def compact (B : Nat) (n : Int) (x : Nat → V) (mem : Nat → Lvl)
    (odataInit boolsInit : Nat → V) : List V × Int :=
  if n ≤ 0 then ([], n)
  else
    let N := n.toNat
    let nPad := 2 ^ ilog2ceil N
    let g0 := (nPad + B - 1) / B
    let bools := compactBools B N x boolsInit
    let indices := compactIndices B N x mem boolsInit
    let od := kernScatter g0 B nPad odataInit (paddedInput N x) bools indices
    ((List.range N).map fun j => od j,
      toSigned (indices (N - 1) + bools (N - 1)))

/-- Modelled from the spec (the refinement reference of the cross-level
consistency property, §8): the single-level in-group algorithm run on the same
data with a hypothetically unlimited group capacity.  The group capacity is
taken to be `nPad` itself, so the whole zero-padded array occupies one group;
the in-group inclusive scan followed by the shift to exclusive form yields the
result with no decomposition. -/
def singleLevelScan (n : Nat) (x : Nat → V) : List V :=
  let nPad := 2 ^ ilog2ceil n
  let inc := (kernScanInclusive 1 nPad nPad (fun _ => 0) (paddedInput n x)).1
  (List.range n).map fun j =>
    kernShiftToExclusive 1 nPad nPad (fun _ => 0) inc j

/-- Concrete garbage fill used by the sanity examples and witnesses below. -/
def garbageMem : Nat → Lvl :=
  fun _ => ⟨fun _ => 111, fun _ => 222, fun _ => 333⟩

/-- Concrete input sequence used by the witnesses below. -/
def wInput : Nat → V := fun j => ([3, 0, 5, 0, 0, 7].getD j 0 : V)

/-- Sanity: the spec's example `scan(8, [1,2,3,4,5,6,7,8]) = [0,1,3,6,10,15,21,28]`,
with group capacity 2 (three decomposition levels). -/
example :
    scan 2 8 (fun j => ((j : V) + 1)) garbageMem =
      [0, 1, 3, 6, 10, 15, 21, 28] := by decide

/-- Sanity: the same example with group capacity 4 (two levels). -/
example :
    scan 4 8 (fun j => ((j : V) + 1)) garbageMem =
      [0, 1, 3, 6, 10, 15, 21, 28] := by decide

/-- Sanity: the spec's example `compact(8, [1,0,0,3,0,4,0,0]) = ([1,3,4], 3)`:
the count is 3 and the first 3 output cells are `[1,3,4]`. -/
example :
    ((compact 2 8 (fun j => ([1, 0, 0, 3, 0, 4, 0, 0].getD j 0 : V))
        garbageMem (fun _ => 99) (fun _ => 55)).2 = 3 ∧
      ((compact 2 8 (fun j => ([1, 0, 0, 3, 0, 4, 0, 0].getD j 0 : V))
          garbageMem (fun _ => 99) (fun _ => 55)).1).take 3 = [1, 3, 4]) := by
  decide

/-! ### Arithmetic helpers -/

theorem le_pow_ilog2ceilAux :
    ∀ fuel n, n ≤ fuel → n ≤ 2 ^ ilog2ceilAux fuel n := by
  intro fuel
  induction fuel with
  | zero => intro n h; simp only [ilog2ceilAux]; omega
  | succ f ih =>
    intro n h
    by_cases h1 : n ≤ 1
    · simp only [ilog2ceilAux, h1, if_true]; omega
    · have hm : (n + 1) / 2 ≤ f := by omega
      have hrec := ih ((n + 1) / 2) hm
      simp only [ilog2ceilAux, h1, if_false]
      calc n ≤ 2 * ((n + 1) / 2) := by omega
        _ ≤ 2 * 2 ^ ilog2ceilAux f ((n + 1) / 2) := by omega
        _ = 2 ^ (ilog2ceilAux f ((n + 1) / 2) + 1) := by
            rw [pow_succ, Nat.mul_comm]

theorem le_pow_ilog2ceil (n : Nat) : n ≤ 2 ^ ilog2ceil n :=
  le_pow_ilog2ceilAux n n le_rfl

theorem ilog2ceilAux_le :
    ∀ fuel n k, n ≤ 2 ^ k → ilog2ceilAux fuel n ≤ k := by
  intro fuel
  induction fuel with
  | zero => intro n k _; simp [ilog2ceilAux]
  | succ f ih =>
    intro n k hk
    by_cases h1 : n ≤ 1
    · simp [ilog2ceilAux, h1]
    · simp only [ilog2ceilAux, h1, if_false]
      match k with
      | 0 => simp at hk; omega
      | k + 1 =>
        have h2 : 2 ^ (k + 1) = 2 * 2 ^ k := by rw [pow_succ, Nat.mul_comm]
        have : (n + 1) / 2 ≤ 2 ^ k := by omega
        have := ih ((n + 1) / 2) k this
        omega

theorem ilog2ceil_le {n k : Nat} (h : n ≤ 2 ^ k) : ilog2ceil n ≤ k :=
  ilog2ceilAux_le n n k h

theorem ilog2ceil_pow (e : Nat) : ilog2ceil (2 ^ e) = e := by
  refine le_antisymm (ilog2ceil_le le_rfl) ?_
  have h := le_pow_ilog2ceil (2 ^ e)
  exact (Nat.pow_le_pow_iff_right (by omega)).mp h

theorem ceil_mul_ge {B : Nat} (hB : 0 < B) (n : Nat) :
    n ≤ (n + B - 1) / B * B := by
  have h := Nat.div_add_mod (n + B - 1) B
  have hr := Nat.mod_lt (n + B - 1) hB
  rw [Nat.mul_comm]
  generalize B * ((n + B - 1) / B) = t at h ⊢
  omega

theorem ceil_div_dvd {B : Nat} (hB : 0 < B) {s : Nat} (h : B ∣ s) :
    (s + B - 1) / B = s / B := by
  obtain ⟨q, rfl⟩ := h
  have h1 : B * q + B - 1 = B * q + (B - 1) := by omega
  rw [h1, Nat.mul_add_div hB, Nat.div_eq_of_lt (by omega), Nat.add_zero,
    Nat.mul_div_cancel_left q hB]

theorem ceil_div_small {B : Nat} (hB : 0 < B) {s : Nat} (h1 : 1 ≤ s)
    (h2 : s ≤ B) : (s + B - 1) / B = 1 := by
  refine le_antisymm ?_ ?_
  · have : s + B - 1 < 2 * B := by omega
    have := (Nat.div_lt_iff_lt_mul hB).mpr (by omega : s + B - 1 < 2 * B)
    omega
  · rw [Nat.le_div_iff_mul_le hB]; omega

theorem min_pow_pow (e l : Nat) : min (2 ^ e) (2 ^ l) = 2 ^ min e l := by
  rcases le_total e l with h | h
  · rw [min_eq_left (Nat.pow_le_pow_right (by omega) h), min_eq_left h]
  · rw [min_eq_right (Nat.pow_le_pow_right (by omega) h), min_eq_right h]

theorem mod_pow_block {B : Nat} (j t : Nat) (h : 2 ^ t ∣ B) :
    (j + 1) % 2 ^ t = (j % B + 1) % 2 ^ t := by
  obtain ⟨c, hc⟩ := h
  have hj : j + 1 = 2 ^ t * (c * (j / B)) + (j % B + 1) := by
    conv_lhs => rw [← Nat.div_add_mod j B]
    rw [hc]; ring
  rw [hj, Nat.mul_add_mod]

theorem div_block {B q r : Nat} (hB : 0 < B) (hr : r < B) :
    (B * q + r) / B = q := by
  rw [Nat.mul_add_div hB, Nat.div_eq_of_lt hr, Nat.add_zero]

theorem mod_block {B q r : Nat} (hr : r < B) : (B * q + r) % B = r := by
  rw [Nat.mul_add_mod, Nat.mod_eq_of_lt hr]

theorem sum_blocks (B q : Nat) (f : Nat → V) :
    ∑ b ∈ Finset.range q, ∑ t ∈ Finset.Ico (b * B) (b * B + B), f t =
      ∑ t ∈ Finset.range (q * B), f t := by
  induction q with
  | zero => simp
  | succ q ih =>
    have h1 : (q + 1) * B = q * B + B := by ring
    rw [Finset.sum_range_succ, ih, h1, Finset.range_eq_Ico]
    exact Finset.sum_Ico_consecutive f (Nat.zero_le (q * B)) (Nat.le_add_right _ B)

/-! ### Correctness of `kernScanInclusive`

The upsweep invariant: after phases `0, …, d-1`, cell `j < n` holds the sum of
the `2^k` input cells ending at `j`, where `k` is the largest exponent `≤ d`
with `2^k ∣ j+1`. -/

theorem upsweep_inv {B n g : Nat} (hg : n ≤ g * B) (a : Nat → V) :
    ∀ d j k, j < n → k ≤ d → 2 ^ k ∣ (j + 1) →
      (k = d ∨ ¬ 2 ^ (k + 1) ∣ (j + 1)) →
      upsweepRun g B n d a j = ∑ t ∈ Finset.Ico (j + 1 - 2 ^ k) (j + 1), a t := by
  intro d
  induction d with
  | zero =>
    intro j k _ hk _ _
    have hk0 : k = 0 := by omega
    subst hk0
    simp only [upsweepRun, pow_zero, Nat.add_sub_cancel, Nat.Ico_succ_singleton,
      Finset.sum_singleton]
  | succ d ih =>
    intro j k hj hk hdvd hmax
    have hp : 0 < 2 ^ d := by positivity
    have hps : (2 : Nat) ^ (d + 1) = 2 * 2 ^ d := by rw [pow_succ, Nat.mul_comm]
    show upsweepStep g B n d (upsweepRun g B n d a) j = _
    by_cases hdd : 2 ^ (d + 1) ∣ (j + 1)
    · have hk1 : k = d + 1 := by
        rcases hmax with h | h
        · exact h
        · by_contra hne
          have hkd : k + 1 ≤ d + 1 := by omega
          exact h (dvd_trans (pow_dvd_pow 2 hkd) hdd)
      subst hk1
      have hge : 2 ^ (d + 1) ≤ j + 1 := Nat.le_of_dvd (by omega) hdd
      have hcond : (j + 1) % 2 ^ (d + 1) = 0 := Nat.mod_eq_zero_of_dvd hdd
      simp only [upsweepStep]
      rw [if_pos ⟨hcond, lt_min (by omega) (lt_of_lt_of_le (by omega) hg)⟩]
      have h1 := ih j d hj le_rfl
        (dvd_trans (pow_dvd_pow 2 (by omega)) hdd) (Or.inl rfl)
      have hsub : j - 2 ^ d + 1 = j + 1 - 2 ^ d := by omega
      have h2d : 2 ^ d ∣ (j - 2 ^ d + 1) := by
        rw [hsub]
        exact Nat.dvd_sub' (dvd_trans (pow_dvd_pow 2 (by omega)) hdd) dvd_rfl
      have h2 := ih (j - 2 ^ d) d (by omega) le_rfl h2d (Or.inl rfl)
      rw [h1, h2, hsub]
      have hw : j + 1 - 2 ^ d - 2 ^ d = j + 1 - 2 ^ (d + 1) := by omega
      rw [hw, add_comm]
      exact Finset.sum_Ico_consecutive a (by omega) (by omega)
    · have hkne : k ≠ d + 1 := by
        intro h; subst h; exact hdd hdvd
      have hk2 : k ≤ d := by omega
      have hk3 : ¬ 2 ^ (k + 1) ∣ (j + 1) := by
        rcases hmax with h | h
        · exact absurd h hkne
        · exact h
      simp only [upsweepStep]
      rw [if_neg]
      · exact ih j k hj hk2 hdvd (Or.inr hk3)
      · rintro ⟨hc, -⟩
        exact hdd (Nat.dvd_of_mod_eq_zero hc)

/-! ### Block-offset helpers for the downsweep -/

theorem offset_le {lb e j : Nat} (hj : j < 2 ^ e) :
    j % 2 ^ lb + 1 ≤ 2 ^ min e lb := by
  rcases le_total lb e with h | h
  · rw [min_eq_right h]
    have := Nat.mod_lt j (y := 2 ^ lb) (by positivity)
    omega
  · rw [min_eq_left h]
    rw [Nat.mod_eq_of_lt (lt_of_lt_of_le hj (Nat.pow_le_pow_right (by omega) h))]
    omega

theorem block_end {lb e j : Nat} (hj : j < 2 ^ e) :
    2 ^ lb * (j / 2 ^ lb) + 2 ^ min e lb ≤ 2 ^ e := by
  rcases le_total lb e with h | h
  · rw [min_eq_right h]
    have hpow : (2 : Nat) ^ e = 2 ^ lb * 2 ^ (e - lb) := by
      rw [← pow_add]; congr 1; omega
    have hq : j / 2 ^ lb < 2 ^ (e - lb) := by
      rw [Nat.div_lt_iff_lt_mul (by positivity)]
      rw [hpow] at hj
      calc j < 2 ^ lb * 2 ^ (e - lb) := hj
        _ = 2 ^ (e - lb) * 2 ^ lb := by ring
    calc 2 ^ lb * (j / 2 ^ lb) + 2 ^ lb = 2 ^ lb * (j / 2 ^ lb + 1) := by ring
      _ ≤ 2 ^ lb * 2 ^ (e - lb) := Nat.mul_le_mul_left _ (by omega)
      _ = 2 ^ e := hpow.symm
  · rw [min_eq_left h]
    have hj2 : j < 2 ^ lb := lt_of_lt_of_le hj (Nat.pow_le_pow_right (by omega) h)
    rw [Nat.div_eq_of_lt hj2, Nat.mul_zero, Nat.zero_add]

theorem dvd_shift {B s j : Nat} (h : 2 ^ s ∣ B) :
    2 ^ s ∣ (j + 1) ↔ 2 ^ s ∣ (j % B + 1) := by
  constructor <;> intro hd
  · exact Nat.dvd_of_mod_eq_zero
      (by rw [← mod_pow_block j s h]; exact Nat.mod_eq_zero_of_dvd hd)
  · exact Nat.dvd_of_mod_eq_zero
      (by rw [mod_pow_block j s h]; exact Nat.mod_eq_zero_of_dvd hd)

theorem odd_factor {t c : Nat} (h1 : 2 ^ t ∣ c) (h2 : ¬ 2 ^ (t + 1) ∣ c) :
    ∃ m, m % 2 = 1 ∧ c = 2 ^ t * m := by
  obtain ⟨m, rfl⟩ := h1
  refine ⟨m, ?_, rfl⟩
  rcases Nat.mod_two_eq_zero_or_one m with h | h
  · exfalso
    obtain ⟨m2, rfl⟩ : 2 ∣ m := Nat.dvd_of_mod_eq_zero h
    exact h2 ⟨m2, by rw [pow_succ]; ring⟩
  · exact h

theorem mod_pow_succ_of_half {t c : Nat} (h1 : 2 ^ t ∣ c) (h2 : ¬ 2 ^ (t + 1) ∣ c) :
    c % 2 ^ (t + 1) = 2 ^ t := by
  obtain ⟨m, hm, rfl⟩ := odd_factor h1 h2
  rw [pow_succ, Nat.mul_mod_mul_left, hm, Nat.mul_one]

theorem offset_add_pow_le {t L c : Nat} (ht : t + 1 ≤ L) (h1 : 2 ^ t ∣ c)
    (h2 : ¬ 2 ^ (t + 1) ∣ c) (h3 : c ≤ 2 ^ L) : c + 2 ^ t ≤ 2 ^ L := by
  obtain ⟨m, hm, rfl⟩ := odd_factor h1 h2
  have hpt : 0 < 2 ^ t := by positivity
  have hL : (2 : Nat) ^ L = 2 ^ t * 2 ^ (L - t) := by
    rw [← pow_add]; congr 1; omega
  have heven : 2 ^ (L - t) % 2 = 0 := by
    have h4 : L - t = (L - t - 1) + 1 := by omega
    rw [h4, pow_succ, Nat.mul_mod_left]
  have hm_le : m ≤ 2 ^ (L - t) := by
    rw [hL] at h3
    exact Nat.le_of_mul_le_mul_left h3 hpt
  have hm_lt : m + 1 ≤ 2 ^ (L - t) := by omega
  calc 2 ^ t * m + 2 ^ t = 2 ^ t * (m + 1) := by ring
    _ ≤ 2 ^ t * 2 ^ (L - t) := Nat.mul_le_mul_left _ hm_lt
    _ = 2 ^ L := hL.symm

theorem dvd_of_mod_pow_succ {t c : Nat} (hc : c % 2 ^ (t + 1) = 2 ^ t) :
    2 ^ t ∣ c := by
  have hdm := Nat.div_add_mod c (2 ^ (t + 1))
  rw [hc] at hdm
  refine ⟨2 * (c / 2 ^ (t + 1)) + 1, ?_⟩
  have hpt1 : (2 : Nat) ^ (t + 1) = 2 ^ t * 2 := pow_succ 2 t
  calc c = 2 ^ (t + 1) * (c / 2 ^ (t + 1)) + 2 ^ t := hdm.symm
    _ = 2 ^ t * (2 * (c / 2 ^ (t + 1)) + 1) := by rw [hpt1]; ring

theorem dvd_add_pow {t c : Nat} (h1 : 2 ^ t ∣ c) (h2 : ¬ 2 ^ (t + 1) ∣ c) :
    2 ^ (t + 1) ∣ (c + 2 ^ t) := by
  obtain ⟨m, hm, rfl⟩ := odd_factor h1 h2
  obtain ⟨m2, hm2⟩ : ∃ m2, m + 1 = 2 * m2 := ⟨(m + 1) / 2, by omega⟩
  exact ⟨m2, by rw [pow_succ]; calc 2 ^ t * m + 2 ^ t = 2 ^ t * (m + 1) := by ring
    _ = 2 ^ t * 2 * m2 := by rw [hm2]; ring⟩

/-- The downsweep invariant, by induction on the remaining phases.  If, before
running phases `t-1, …, 0`, every cell `j < n` whose in-block offset
`j % B + 1` is a multiple of `2^t` holds the in-block prefix sum up to the
start of its subtree (`∑_{s ∈ [blockStart, j+1-2^t)} a s`) while every other
cell still holds its upsweep value, then afterwards every cell `j < n` holds
the in-block *exclusive* prefix sum `∑_{s ∈ [blockStart, j)} a s`. -/
theorem downsweep_inv (lb e g : Nat) (a : Nat → V) (hg : 2 ^ e ≤ g * 2 ^ lb) :
    ∀ t, t ≤ min e lb → ∀ arr : Nat → V,
      (∀ j, j < 2 ^ e → 2 ^ t ∣ (j % 2 ^ lb + 1) →
        arr j = ∑ s ∈ Finset.Ico (2 ^ lb * (j / 2 ^ lb)) (j + 1 - 2 ^ t), a s) →
      (∀ j, j < 2 ^ e → ¬ 2 ^ t ∣ (j % 2 ^ lb + 1) →
        arr j = upsweepRun g (2 ^ lb) (2 ^ e) (min e lb) a j) →
      ∀ j, j < 2 ^ e →
        downsweepRun g (2 ^ lb) (2 ^ e) t arr j =
          ∑ s ∈ Finset.Ico (2 ^ lb * (j / 2 ^ lb)) j, a s := by
  intro t
  induction t with
  | zero =>
    intro _ arr hroot _ j hj
    have h := hroot j hj (by simp)
    simp only [downsweepRun]
    rw [h]
    have h2 : j + 1 - 2 ^ 0 = j := by simp
    rw [h2]
  | succ t ih =>
    intro ht arr hroot hother j hj
    have hlbL : t + 1 ≤ lb := le_trans ht (min_le_right _ _)
    have heL : t + 1 ≤ e := le_trans ht (min_le_left _ _)
    have hpt : 0 < 2 ^ t := by positivity
    have hplb : 0 < (2 : Nat) ^ lb := by positivity
    have hpt1 : (2 : Nat) ^ (t + 1) = 2 * 2 ^ t := by rw [pow_succ, Nat.mul_comm]
    have hdvdB1 : (2 : Nat) ^ (t + 1) ∣ 2 ^ lb := pow_dvd_pow 2 hlbL
    show downsweepRun g (2 ^ lb) (2 ^ e) t
        (downsweepStep g (2 ^ lb) (2 ^ e) t arr) j = _
    refine ih (by omega) _ ?_ ?_ j hj
    · -- the stage-`t` root invariant for the stepped array
      intro i hi hdvd
      have hgi : i < g * 2 ^ lb := lt_of_lt_of_le hi hg
      have hsp := Nat.div_add_mod i (2 ^ lb)
      have hm : i % 2 ^ lb < 2 ^ lb := Nat.mod_lt i (y := 2 ^ lb) hplb
      have hco_le : i % 2 ^ lb + 1 ≤ 2 ^ min e lb := offset_le hi
      have hbe := @block_end lb e i hi
      by_cases hdd : 2 ^ (t + 1) ∣ (i % 2 ^ lb + 1)
      · -- parent cell: the `(i+1) % 2^(t+1) = 0` branch of the step
        have hco_ge : 2 ^ (t + 1) ≤ i % 2 ^ lb + 1 := Nat.le_of_dvd (by omega) hdd
        have hg1 : (i + 1) % 2 ^ (t + 1) = 0 := by
          rw [mod_pow_block i (t + 1) hdvdB1]
          exact Nat.mod_eq_zero_of_dvd hdd
        have hnl : ¬ ((i + 1) % 2 ^ (t + 1) = 2 ^ t ∧
            i + 1 - 2 ^ t < min (2 ^ e) (g * 2 ^ lb)) := by
          rintro ⟨hc, -⟩
          rw [hg1] at hc
          omega
        simp only [downsweepStep]
        rw [if_neg hnl, if_pos ⟨hg1, lt_min (by omega) (by omega)⟩]
        have h1 := hroot i hi hdd
        have hshape : i - 2 ^ t = 2 ^ lb * (i / 2 ^ lb) + (i % 2 ^ lb - 2 ^ t) := by
          omega
        have hdivs : (i - 2 ^ t) / 2 ^ lb = i / 2 ^ lb := by
          rw [hshape]; exact div_block hplb (by omega)
        have hmods : (i - 2 ^ t) % 2 ^ lb = i % 2 ^ lb - 2 ^ t := by
          rw [hshape]; exact mod_block (by omega)
        have hco2 : (i - 2 ^ t) % 2 ^ lb + 1 = i % 2 ^ lb + 1 - 2 ^ t := by omega
        have hco2d : ¬ 2 ^ (t + 1) ∣ ((i - 2 ^ t) % 2 ^ lb + 1) := by
          rw [hco2]
          intro hcon
          have h5 := Nat.dvd_sub' hdd hcon
          have h6 : i % 2 ^ lb + 1 - (i % 2 ^ lb + 1 - 2 ^ t) = 2 ^ t := by omega
          rw [h6] at h5
          have := Nat.le_of_dvd hpt h5
          omega
        have h2 := hother (i - 2 ^ t) (by omega) hco2d
        have hgd1 : 2 ^ t ∣ (i - 2 ^ t + 1) := by
          refine (dvd_shift (pow_dvd_pow 2 (show t ≤ lb by omega))).mpr ?_
          rw [hco2]
          exact Nat.dvd_sub' (dvd_trans (pow_dvd_pow 2 (Nat.le_succ t)) hdd) dvd_rfl
        have hgd2 : ¬ 2 ^ (t + 1) ∣ (i - 2 ^ t + 1) :=
          fun hcon => hco2d ((dvd_shift hdvdB1).mp hcon)
        have h3 := upsweep_inv hg a (min e lb) (i - 2 ^ t) t (by omega) (by omega)
          hgd1 (Or.inr hgd2)
        rw [h1, h2, h3]
        have e1 : i - 2 ^ t + 1 - 2 ^ t = i + 1 - 2 ^ (t + 1) := by omega
        have e2 : i - 2 ^ t + 1 = i + 1 - 2 ^ t := by omega
        rw [e1, e2]
        exact Finset.sum_Ico_consecutive a (by omega) (by omega)
      · -- left-child cell: the `(i+1) % 2^(t+1) = 2^t` branch of the step
        have hmodc : (i % 2 ^ lb + 1) % 2 ^ (t + 1) = 2 ^ t :=
          mod_pow_succ_of_half hdvd hdd
        have hg1 : (i + 1) % 2 ^ (t + 1) = 2 ^ t := by
          rw [mod_pow_block i (t + 1) hdvdB1]; exact hmodc
        have hco_ge : 2 ^ t ≤ i % 2 ^ lb + 1 := Nat.le_of_dvd (by omega) hdvd
        have hco_add : i % 2 ^ lb + 1 + 2 ^ t ≤ 2 ^ min e lb :=
          offset_add_pow_le ht hdvd hdd hco_le
        have hminle : (2 : Nat) ^ min e lb ≤ 2 ^ lb :=
          Nat.pow_le_pow_right (by omega) (min_le_right e lb)
        have hlt : i + 2 ^ t < 2 ^ e := by omega
        simp only [downsweepStep]
        rw [if_pos ⟨hg1, lt_min (by omega) (by omega)⟩]
        have hshape : i + 2 ^ t = 2 ^ lb * (i / 2 ^ lb) + (i % 2 ^ lb + 2 ^ t) := by
          omega
        have hdivs : (i + 2 ^ t) / 2 ^ lb = i / 2 ^ lb := by
          rw [hshape]; exact div_block hplb (by omega)
        have hmods : (i + 2 ^ t) % 2 ^ lb = i % 2 ^ lb + 2 ^ t := by
          rw [hshape]; exact mod_block (by omega)
        have hpd : 2 ^ (t + 1) ∣ ((i + 2 ^ t) % 2 ^ lb + 1) := by
          rw [hmods]
          have hd := dvd_add_pow hdvd hdd
          have he : i % 2 ^ lb + 2 ^ t + 1 = i % 2 ^ lb + 1 + 2 ^ t := by omega
          rwa [he]
        have h1 := hroot (i + 2 ^ t) hlt hpd
        rw [h1, hdivs]
        have he2 : i + 2 ^ t + 1 - 2 ^ (t + 1) = i + 1 - 2 ^ t := by omega
        rw [he2]
    · -- the stage-`t` untouched invariant for the stepped array
      intro i hi hnd
      have hnd1 : ¬ 2 ^ (t + 1) ∣ (i % 2 ^ lb + 1) :=
        fun hcon => hnd (dvd_trans (pow_dvd_pow 2 (Nat.le_succ t)) hcon)
      have hnl : ¬ ((i + 1) % 2 ^ (t + 1) = 2 ^ t ∧
          i + 1 - 2 ^ t < min (2 ^ e) (g * 2 ^ lb)) := by
        rintro ⟨hc, -⟩
        rw [mod_pow_block i (t + 1) hdvdB1] at hc
        exact hnd (dvd_of_mod_pow_succ hc)
      have hnr : ¬ ((i + 1) % 2 ^ (t + 1) = 0 ∧
          i + 1 - 2 ^ (t + 1) < min (2 ^ e) (g * 2 ^ lb)) := by
        rintro ⟨hc, -⟩
        exact hnd1 ((dvd_shift hdvdB1).mp (Nat.dvd_of_mod_eq_zero hc))
      simp only [downsweepStep]
      rw [if_neg hnl, if_neg hnr]
      exact hother i hi hnd1

theorem sub_one_mod {B n : Nat} (hB : 0 < B) (hd : B ∣ n) (hn : 0 < n) :
    (n - 1) % B = B - 1 := by
  obtain ⟨q, rfl⟩ := hd
  match q with
  | 0 => simp at hn
  | q + 1 =>
    have hm : B * (q + 1) = B * q + B := Nat.mul_succ B q
    have hshape : B * (q + 1) - 1 = B * q + (B - 1) := by omega
    rw [hshape]
    exact mod_block (by omega)

/-- Correctness of `kernScanInclusive`: on a power-of-two array length `2^e`
with power-of-two block size `2^lb` and a grid covering the array, the
returned `odata` holds, at every `j < 2^e`, the *inclusive* prefix sum of the
block of `j` up to `j` (blocks are the aligned segments of `min(2^e, 2^lb)`
cells). -/
theorem kernScanInclusive_spec (lb e g : Nat) (hg : 2 ^ e ≤ g * 2 ^ lb)
    (a o0 : Nat → V) (j : Nat) (hj : j < 2 ^ e) :
    (kernScanInclusive g (2 ^ lb) (2 ^ e) o0 a).1 j =
      ∑ s ∈ Finset.Ico (2 ^ lb * (j / 2 ^ lb)) (j + 1), a s := by
  have hL : ilog2ceil (min (2 ^ e) (2 ^ lb)) = min e lb := by
    rw [min_pow_pow, ilog2ceil_pow]
  have hplb : 0 < (2 : Nat) ^ lb := by positivity
  have hpe : 0 < (2 : Nat) ^ e := by positivity
  have hgj : j < g * 2 ^ lb := lt_of_lt_of_le hj hg
  have hstart_root : ∀ i, i < 2 ^ e → 2 ^ min e lb ∣ (i % 2 ^ lb + 1) →
      clearLast g (2 ^ lb) (2 ^ e)
          (upsweepRun g (2 ^ lb) (2 ^ e) (min e lb) a) i =
        ∑ s ∈ Finset.Ico (2 ^ lb * (i / 2 ^ lb)) (i + 1 - 2 ^ min e lb), a s := by
    intro i hi hdvd
    have hsp := Nat.div_add_mod i (2 ^ lb)
    have hm : i % 2 ^ lb < 2 ^ lb := Nat.mod_lt i hplb
    have hco_le := @offset_le lb e i hi
    have hco : i % 2 ^ lb + 1 = 2 ^ min e lb :=
      le_antisymm hco_le (Nat.le_of_dvd (by omega) hdvd)
    have hclr : i % 2 ^ lb = 2 ^ lb - 1 ∨ i = 2 ^ e - 1 := by
      rcases le_total lb e with h | h
      · left
        rw [min_eq_right h] at hco
        omega
      · right
        have hie : i < 2 ^ lb := lt_of_lt_of_le hi (Nat.pow_le_pow_right (by omega) h)
        rw [Nat.mod_eq_of_lt hie, min_eq_left h] at hco
        omega
    have hempty : i + 1 - 2 ^ min e lb = 2 ^ lb * (i / 2 ^ lb) := by omega
    simp only [clearLast]
    rw [if_pos ⟨lt_min hi (lt_of_lt_of_le hi hg), hclr⟩, hempty, Finset.Ico_self,
      Finset.sum_empty]
  have hstart_other : ∀ i, i < 2 ^ e → ¬ 2 ^ min e lb ∣ (i % 2 ^ lb + 1) →
      clearLast g (2 ^ lb) (2 ^ e)
          (upsweepRun g (2 ^ lb) (2 ^ e) (min e lb) a) i =
        upsweepRun g (2 ^ lb) (2 ^ e) (min e lb) a i := by
    intro i hi hnd
    have hnc : ¬ (i < min (2 ^ e) (g * 2 ^ lb) ∧
        (i % 2 ^ lb = 2 ^ lb - 1 ∨ i = 2 ^ e - 1)) := by
      rintro ⟨-, hcase | hcase⟩
      · apply hnd
        have h2 : i % 2 ^ lb + 1 = 2 ^ lb := by
          have := Nat.mod_lt i hplb
          omega
        rw [h2]
        exact pow_dvd_pow 2 (min_le_right e lb)
      · subst hcase
        apply hnd
        rcases le_total lb e with h | h
        · rw [sub_one_mod hplb (pow_dvd_pow 2 h) hpe]
          have h2 : 2 ^ lb - 1 + 1 = 2 ^ lb := by omega
          rw [h2]
          exact pow_dvd_pow 2 (min_le_right e lb)
        · have hlt2 : 2 ^ e - 1 < 2 ^ lb :=
            lt_of_lt_of_le (by omega) (Nat.pow_le_pow_right (by omega) h)
          rw [Nat.mod_eq_of_lt hlt2]
          have h2 : 2 ^ e - 1 + 1 = 2 ^ e := by omega
          rw [h2, min_eq_left h]
    simp only [clearLast]
    rw [if_neg hnc]
  have hdown := downsweep_inv lb e g a hg (min e lb) le_rfl _ hstart_root
    hstart_other
  simp only [kernScanInclusive, hL]
  rw [min_eq_left hg, if_pos hj]
  by_cases hlast : j % 2 ^ lb = 2 ^ lb - 1 ∨ j = 2 ^ e - 1
  · rw [if_pos hlast]
    have hsp := Nat.div_add_mod j (2 ^ lb)
    have hm : j % 2 ^ lb < 2 ^ lb := Nat.mod_lt j hplb
    have hco : j % 2 ^ lb + 1 = 2 ^ min e lb := by
      rcases hlast with h | h
      · rcases le_or_lt lb e with h2 | h2
        · rw [min_eq_right h2]; omega
        · exfalso
          have hje : j < 2 ^ lb :=
            lt_of_lt_of_le hj (Nat.pow_le_pow_right (by omega) (by omega))
          rw [Nat.mod_eq_of_lt hje] at h
          have h3 : 2 ^ (e + 1) ≤ 2 ^ lb := Nat.pow_le_pow_right (by omega) h2
          have h4 : (2 : Nat) ^ (e + 1) = 2 * 2 ^ e := by
            rw [pow_succ, Nat.mul_comm]
          omega
      · rcases le_total lb e with h2 | h2
        · rw [h, sub_one_mod hplb (pow_dvd_pow 2 h2) hpe, min_eq_right h2]
          omega
        · have hlt2 : 2 ^ e - 1 < 2 ^ lb :=
            lt_of_lt_of_le (by omega) (Nat.pow_le_pow_right (by omega) h2)
          rw [h, Nat.mod_eq_of_lt hlt2, min_eq_left h2]
          omega
    have hgd : 2 ^ min e lb ∣ (j + 1) := by
      have hshape : j + 1 = 2 ^ lb * (j / 2 ^ lb) + 2 ^ min e lb := by omega
      rw [hshape]
      exact Nat.dvd_add
        (dvd_mul_of_dvd_left (pow_dvd_pow 2 (min_le_right e lb)) _) dvd_rfl
    have hu := upsweep_inv hg a (min e lb) j (min e lb) hj le_rfl hgd (Or.inl rfl)
    rw [hu]
    have hbb : j + 1 - 2 ^ min e lb = 2 ^ lb * (j / 2 ^ lb) := by omega
    rw [hbb]
  · rw [if_neg hlast]
    push_neg at hlast
    obtain ⟨hl1, hl2⟩ := hlast
    have hsp := Nat.div_add_mod j (2 ^ lb)
    have hm : j % 2 ^ lb < 2 ^ lb := Nat.mod_lt j hplb
    have hj1 : j + 1 < 2 ^ e := by omega
    have hshape : j + 1 = 2 ^ lb * (j / 2 ^ lb) + (j % 2 ^ lb + 1) := by omega
    have hdiv1 : (j + 1) / 2 ^ lb = j / 2 ^ lb := by
      rw [hshape]; exact div_block hplb (by omega)
    have hfin := hdown (j + 1) hj1
    rw [hdiv1] at hfin
    rw [hfin]

/-! ### Structural equations for the passes -/

theorem upPass_one (B s : Nat) (l : Lvl) (ls : List Lvl) :
    upPass B [s] (l :: ls) = [upLevel B s l] := rfl

theorem upPass_two (B s s2 : Nat) (ss : List Nat) (l l2 : Lvl) (ls : List Lvl) :
    upPass B (s :: s2 :: ss) (l :: l2 :: ls) =
      upLevel B s l ::
        upPass B (s2 :: ss)
          ({ l2 with
            idata := kernExtractLastElementPerBlock ((s + B - 1) / B) B s
              l2.idata (upLevel B s l).idata } :: ls) := rfl

theorem upPass_head (B s : Nat) (ss : List Nat) (l : Lvl) (ls : List Lvl) :
    ∃ rest, upPass B (s :: ss) (l :: ls) = upLevel B s l :: rest := by
  cases ss with
  | nil => exact ⟨[], rfl⟩
  | cons s2 ss2 =>
    cases ls with
    | nil => exact ⟨[], rfl⟩
    | cons l2 ls2 => exact ⟨_, rfl⟩

theorem downPass_one (B s : Nat) (l : Lvl) (ls : List Lvl) :
    downPass B [s] (l :: ls) =
      [{ idata := l.idata,
         odata := kernShiftToExclusive ((s + B - 1) / B) B s l.odata l.buffer,
         buffer := l.buffer }] := rfl

theorem downPass_two (B s s2 : Nat) (ss : List Nat) (l l2 : Lvl) (ls : List Lvl)
    (l2d : Lvl) (lsd : List Lvl)
    (h : downPass B (s2 :: ss) (l2 :: ls) = l2d :: lsd) :
    downPass B (s :: s2 :: ss) (l :: l2 :: ls) =
      { idata := l.idata,
        odata := kernShiftToExclusive ((s + B - 1) / B) B s l.odata
          (kernAddOffsetPerBlock ((s + B - 1) / B) B s l.buffer l2d.odata
            l.idata),
        buffer := kernAddOffsetPerBlock ((s + B - 1) / B) B s l.buffer
          l2d.odata l.idata } :: l2d :: lsd := by
  have hred : downPass B (s :: s2 :: ss) (l :: l2 :: ls) =
      (match downPass B (s2 :: ss) (l2 :: ls) with
       | l2d :: lsd =>
           { idata := l.idata,
             odata := kernShiftToExclusive ((s + B - 1) / B) B s l.odata
               (kernAddOffsetPerBlock ((s + B - 1) / B) B s l.buffer l2d.odata
                 l.idata),
             buffer := kernAddOffsetPerBlock ((s + B - 1) / B) B s l.buffer
               l2d.odata l.idata } :: l2d :: lsd
       | [] => []) := rfl
  rw [hred, h]

theorem downPass_shape (B : Nat) :
    ∀ (ss : List Nat) (s : Nat) (l : Lvl) (ls : List Lvl),
      ∃ l0 rest, downPass B (s :: ss) (l :: ls) = l0 :: rest := by
  intro ss
  induction ss with
  | nil => intro s l ls; exact ⟨_, _, rfl⟩
  | cons s2 ss2 ih =>
    intro s l ls
    cases ls with
    | nil => exact ⟨_, _, rfl⟩
    | cons l2 ls2 =>
      obtain ⟨l0, rest, heq⟩ := ih s2 l2 ls2
      exact ⟨_, _, downPass_two B s s2 ss2 l l2 ls2 l0 rest heq⟩

theorem mkLvls_length (k : Nat) (mem : Nat → Lvl) (f : Nat → V) :
    (mkLvls k mem f).length = k := by
  simp only [mkLvls]
  cases hx : (List.range k).map mem with
  | nil =>
    have := congrArg List.length hx
    simp at this
    simp [this]
  | cons l ls =>
    have := congrArg List.length hx
    simp at this
    simp [← this]

theorem mkLvls_headI {k : Nat} (hk : 0 < k) (mem : Nat → Lvl) (f : Nat → V) :
    (mkLvls k mem f).headI = { mem 0 with idata := f } := by
  obtain ⟨k2, rfl⟩ : ∃ k2, k = k2 + 1 := ⟨k - 1, by omega⟩
  have h : (List.range (k2 + 1)).map mem =
      mem 0 :: (List.range k2).map (mem ∘ Nat.succ) := by
    rw [List.range_succ_eq_map, List.map_cons, List.map_map]
  simp [mkLvls, h]

/-! ### The level-size list is a well-formed chain -/

theorem levelSizesAux_chain {B : Nat} (hB : 2 ≤ B) :
    ∀ fuel len, 1 ≤ len → len ≤ fuel →
      SizesChain B (levelSizesAux fuel B len) ∧
        (levelSizesAux fuel B len).head? = some len := by
  intro fuel
  induction fuel with
  | zero => intro len h1 h2; omega
  | succ f ih =>
    intro len h1 h2
    by_cases hc : (len + B - 1) / B > 1
    · have hlenB : B + 1 ≤ len := by
        have := (Nat.le_div_iff_mul_le (show 0 < B by omega)).mp hc
        omega
      have hlt : (len + B - 1) / B < len := by
        rw [Nat.div_lt_iff_lt_mul (show 0 < B by omega)]
        have hmul : len * 2 ≤ len * B := Nat.mul_le_mul_left len hB
        omega
      obtain ⟨hch, hhd⟩ := ih ((len + B - 1) / B) (by omega) (by omega)
      obtain ⟨tl, htl⟩ : ∃ tl,
          levelSizesAux f B ((len + B - 1) / B) = ((len + B - 1) / B) :: tl := by
        cases hx : levelSizesAux f B ((len + B - 1) / B) with
        | nil => rw [hx] at hhd; simp at hhd
        | cons a tl =>
          rw [hx] at hhd
          simp only [List.head?_cons, Option.some.injEq] at hhd
          exact ⟨tl, by rw [hhd]⟩
      constructor
      · simp only [levelSizesAux, if_pos hc, htl]
        rw [htl] at hch
        exact ⟨rfl, by omega, hch⟩
      · simp [levelSizesAux]
    · constructor
      · have hge : 1 ≤ (len + B - 1) / B := by
          rw [Nat.le_div_iff_mul_le (show 0 < B by omega)]
          omega
        simp only [levelSizesAux, if_neg hc]
        show (len + B - 1) / B = 1
        omega
      · simp [levelSizesAux]

theorem levelSizes_chain {B nPad : Nat} (hB : 2 ≤ B) (h1 : 1 ≤ nPad) :
    SizesChain B (levelSizes B nPad) ∧
      (levelSizes B nPad).head? = some nPad :=
  levelSizesAux_chain hB nPad nPad h1 le_rfl

theorem upPass_two' (B s s2 : Nat) (ss : List Nat) (l l2 : Lvl)
    (ls : List Lvl) (l2e : Lvl)
    (h : l2e = { l2 with
      idata := kernExtractLastElementPerBlock ((s + B - 1) / B) B s
        l2.idata (upLevel B s l).idata }) :
    upPass B (s :: s2 :: ss) (l :: l2 :: ls) =
      upLevel B s l :: upPass B (s2 :: ss) (l2e :: ls) := by
  subst h; rfl

/-- Correctness of the multi-level pipeline (the upward pass of
efficient.cu:99-109 followed by the downward pass of efficient.cu:110-120):
for a well-formed chain of power-of-two level sizes, level 0's output buffer
ends up holding the exclusive prefix sums of level 0's input buffer. -/
theorem pipeline_spec (lb : Nat) :
    ∀ sizes : List Nat, SizesChain (2 ^ lb) sizes →
      ∀ e : Nat, sizes.head? = some (2 ^ e) →
      ∀ lvls : List Lvl, lvls.length = sizes.length →
      ∀ j, j < 2 ^ e →
        (downPass (2 ^ lb) sizes (upPass (2 ^ lb) sizes lvls)).headI.odata j =
          ∑ s ∈ Finset.range j, lvls.headI.idata s := by
  intro sizes
  induction sizes with
  | nil => intro hch; exact absurd hch (by simp [SizesChain])
  | cons s ss ih =>
    intro hch e hhd lvls hlen j hj
    simp only [List.head?_cons, Option.some.injEq] at hhd
    subst hhd
    have hB1 : 0 < (2 : Nat) ^ lb := by positivity
    cases lvls with
    | nil => simp at hlen
    | cons l ls =>
    simp only [List.length_cons] at hlen
    cases ss with
    | nil =>
      -- a single level: `n ≤ groupCapacity`
      have hch1 : (2 ^ e + 2 ^ lb - 1) / 2 ^ lb = 1 := hch
      have hsB : (2 : Nat) ^ e ≤ 2 ^ lb := by
        by_contra hcon
        push_neg at hcon
        have h2 : 2 * 2 ^ lb ≤ 2 ^ e + 2 ^ lb - 1 := by omega
        have := (Nat.le_div_iff_mul_le hB1).mpr (by omega : 2 * 2 ^ lb ≤ 2 ^ e + 2 ^ lb - 1)
        omega
      have hls : ls = [] := List.length_eq_zero.mp
        (by simp only [List.length_nil] at hlen; omega)
      subst hls
      rw [upPass_one, downPass_one]
      simp only [List.headI]
      have hg : (2 : Nat) ^ e ≤ ((2 ^ e + 2 ^ lb - 1) / 2 ^ lb) * 2 ^ lb :=
        ceil_mul_ge hB1 _
      simp only [kernShiftToExclusive]
      rw [if_pos (lt_min hj (lt_of_lt_of_le hj hg))]
      by_cases hj0 : j = 0
      · subst hj0; simp
      · rw [if_neg hj0]
        have hbuf : (upLevel (2 ^ lb) (2 ^ e) l).buffer =
            (kernScanInclusive ((2 ^ e + 2 ^ lb - 1) / 2 ^ lb) (2 ^ lb) (2 ^ e)
              l.buffer l.idata).1 := rfl
        rw [hbuf, kernScanInclusive_spec lb e _ hg l.idata l.buffer (j - 1)
          (by omega)]
        have hdiv0 : (j - 1) / 2 ^ lb = 0 := Nat.div_eq_of_lt (by omega)
        rw [hdiv0, Nat.mul_zero]
        have hj1 : j - 1 + 1 = j := by omega
        rw [hj1, Finset.range_eq_Ico]
    | cons s2 ss2 =>
      obtain ⟨hs2, hs2ge, hch2⟩ := hch
      have hlbe : lb < e := by
        by_contra hcon
        push_neg at hcon
        have h1 : (2 : Nat) ^ e ≤ 2 ^ lb := Nat.pow_le_pow_right (by omega) hcon
        have := ceil_div_small hB1 Nat.one_le_two_pow h1
        omega
      have hdvd : (2 : Nat) ^ lb ∣ 2 ^ e := pow_dvd_pow 2 (by omega)
      have hs2e : s2 = 2 ^ (e - lb) := by
        rw [hs2, ceil_div_dvd hB1 hdvd, Nat.pow_div (by omega) (by omega)]
      subst hs2e
      cases ls with
      | nil => simp only [List.length_cons, List.length_nil] at hlen; omega
      | cons l2 ls2 =>
      have hlen3 : ls2.length = ss2.length := by
        simp only [List.length_cons] at hlen ⊢
        omega
      have hgB : (2 : Nat) ^ e ≤ ((2 ^ e + 2 ^ lb - 1) / 2 ^ lb) * 2 ^ lb :=
        ceil_mul_ge hB1 _
      set l2e : Lvl := { l2 with
        idata := kernExtractLastElementPerBlock
          ((2 ^ e + 2 ^ lb - 1) / 2 ^ lb) (2 ^ lb) (2 ^ e)
          l2.idata (upLevel (2 ^ lb) (2 ^ e) l).idata } with hl2e
      rw [upPass_two' (2 ^ lb) (2 ^ e) (2 ^ (e - lb)) ss2 l l2 ls2 l2e hl2e]
      obtain ⟨rest, hrest⟩ := upPass_head (2 ^ lb) (2 ^ (e - lb)) ss2 l2e ls2
      obtain ⟨ld, lsd, hdp⟩ := downPass_shape (2 ^ lb) ss2 (2 ^ (e - lb))
        (upLevel (2 ^ lb) (2 ^ (e - lb)) l2e) rest
      have hIH := ih hch2 (e - lb) (by simp) (l2e :: ls2) (by simp [hlen3])
      rw [hrest] at hIH
      rw [hdp] at hIH
      simp only [List.headI] at hIH
      rw [hrest]
      rw [downPass_two (2 ^ lb) (2 ^ e) (2 ^ (e - lb)) ss2
        (upLevel (2 ^ lb) (2 ^ e) l) (upLevel (2 ^ lb) (2 ^ (e - lb)) l2e)
        rest ld lsd hdp]
      simp only [List.headI]
      simp only [kernShiftToExclusive]
      rw [if_pos (lt_min hj (lt_of_lt_of_le hj hgB))]
      by_cases hj0 : j = 0
      · subst hj0; simp
      · rw [if_neg hj0]
        simp only [kernAddOffsetPerBlock]
        rw [if_pos (lt_min (by omega) (lt_of_lt_of_le (by omega) hgB))]
        have hidata : (upLevel (2 ^ lb) (2 ^ e) l).idata (j - 1) =
            (kernScanInclusive ((2 ^ e + 2 ^ lb - 1) / 2 ^ lb) (2 ^ lb) (2 ^ e)
              l.buffer l.idata).1 (j - 1) := by
          simp only [upLevel]
          rw [if_pos (by omega : j - 1 < 2 ^ e)]
        rw [hidata, kernScanInclusive_spec lb e _ hgB l.idata l.buffer (j - 1)
          (by omega)]
        have hsp := Nat.div_add_mod (j - 1) (2 ^ lb)
        have hpow : (2 : Nat) ^ (e - lb) * 2 ^ lb = 2 ^ e := by
          rw [← pow_add]; congr 1; omega
        have hqlt : (j - 1) / 2 ^ lb < 2 ^ (e - lb) := by
          rw [Nat.div_lt_iff_lt_mul hB1]
          omega
        rw [hIH ((j - 1) / 2 ^ lb) hqlt]
        have hterm : ∀ b, b ∈ Finset.range ((j - 1) / 2 ^ lb) →
            l2e.idata b =
              ∑ s ∈ Finset.Ico (b * 2 ^ lb) (b * 2 ^ lb + 2 ^ lb), l.idata s := by
          intro b hb
          have hblt : b < 2 ^ (e - lb) := lt_trans (Finset.mem_range.mp hb) hqlt
          have hbB : (b + 1) * 2 ^ lb ≤ 2 ^ e := by
            calc (b + 1) * 2 ^ lb ≤ 2 ^ (e - lb) * 2 ^ lb :=
                  Nat.mul_le_mul_right _ (by omega)
              _ = 2 ^ e := hpow
          have hsm : (b + 1) * 2 ^ lb = b * 2 ^ lb + 2 ^ lb := Nat.succ_mul b _
          have hcm : b * 2 ^ lb = 2 ^ lb * b := Nat.mul_comm _ _
          rw [hl2e]
          simp only [kernExtractLastElementPerBlock]
          rw [if_pos ⟨by rw [← hs2]; exact hblt, by omega⟩]
          rw [min_eq_left hbB]
          have hov : (upLevel (2 ^ lb) (2 ^ e) l).idata ((b + 1) * 2 ^ lb - 1) =
              (kernScanInclusive ((2 ^ e + 2 ^ lb - 1) / 2 ^ lb) (2 ^ lb)
                (2 ^ e) l.buffer l.idata).1 ((b + 1) * 2 ^ lb - 1) := by
            simp only [upLevel]
            rw [if_pos (by omega : (b + 1) * 2 ^ lb - 1 < 2 ^ e)]
          rw [hov, kernScanInclusive_spec lb e _ hgB l.idata l.buffer
            ((b + 1) * 2 ^ lb - 1) (by omega)]
          have hshape : (b + 1) * 2 ^ lb - 1 = 2 ^ lb * b + (2 ^ lb - 1) := by
            omega
          have hdivb : ((b + 1) * 2 ^ lb - 1) / 2 ^ lb = b := by
            rw [hshape]; exact div_block hB1 (by omega)
          rw [hdivb]
          have hup : (b + 1) * 2 ^ lb - 1 + 1 = b * 2 ^ lb + 2 ^ lb := by omega
          rw [hup, hcm]
        rw [Finset.sum_congr rfl hterm, sum_blocks]
        have hj1 : j - 1 + 1 = j := by omega
        have hql : 2 ^ lb * ((j - 1) / 2 ^ lb) = ((j - 1) / 2 ^ lb) * 2 ^ lb :=
          Nat.mul_comm _ _
        rw [hj1, hql, Finset.range_eq_Ico, add_comm]
        exact Finset.sum_Ico_consecutive l.idata (Nat.zero_le _) (by omega)

/-! ### Correctness of the `scan` driver -/

theorem getD_map_range (n k : Nat) (f : Nat → V) (hk : k < n) :
    ((List.range n).map f).getD k 0 = f k := by
  rw [List.getD_eq_getElem?_getD, List.getElem?_map, List.getElem?_range hk]
  rfl

theorem two_le_pow {lb : Nat} (hlb : 1 ≤ lb) : 2 ≤ (2 : Nat) ^ lb := by
  calc (2 : Nat) = 2 ^ 1 := (pow_one 2).symm
    _ ≤ 2 ^ lb := Nat.pow_le_pow_right (by omega) hlb

theorem levelSizes_length_pos {B nPad : Nat} (hB : 2 ≤ B) (h1 : 1 ≤ nPad) :
    0 < (levelSizes B nPad).length := by
  obtain ⟨-, hhd⟩ := levelSizes_chain hB h1
  cases hx : levelSizes B nPad with
  | nil => rw [hx] at hhd; simp at hhd
  | cons a tl => simp

/-- `scanDev` computes exactly the exclusive prefix sums of its input,
independently of the malloc garbage `mem`. -/
theorem scanDev_spec (lb n : Nat) (hlb : 1 ≤ lb) (hn : 1 ≤ n) (x : Nat → V)
    (mem : Nat → Lvl) :
    scanDev (2 ^ lb) n x mem =
      (List.range n).map (fun j => ∑ s ∈ Finset.range j, x s) := by
  have hB2 : 2 ≤ (2 : Nat) ^ lb := two_le_pow hlb
  have hnp : 1 ≤ 2 ^ ilog2ceil n := Nat.one_le_two_pow
  obtain ⟨hch, hhd⟩ := levelSizes_chain (B := 2 ^ lb) hB2 hnp
  have hlen0 : 0 < (levelSizes (2 ^ lb) (2 ^ ilog2ceil n)).length :=
    levelSizes_length_pos hB2 hnp
  have hlvlen : (scanInitLvls (2 ^ lb) n x mem).length =
      (levelSizes (2 ^ lb) (2 ^ ilog2ceil n)).length := by
    simp [scanInitLvls, mkLvls_length]
  have hpl := pipeline_spec lb (levelSizes (2 ^ lb) (2 ^ ilog2ceil n)) hch
    (ilog2ceil n) hhd (scanInitLvls (2 ^ lb) n x mem) hlvlen
  have hhead : (scanInitLvls (2 ^ lb) n x mem).headI.idata =
      fun j => if j < n then x j else (mem 0).idata j := by
    rw [scanInitLvls, mkLvls_headI hlen0]
  simp only [scanDev]
  refine List.map_congr_left ?_
  intro j hj
  have hjn : j < n := List.mem_range.mp hj
  have hje : j < 2 ^ ilog2ceil n := lt_of_lt_of_le hjn (le_pow_ilog2ceil n)
  rw [hpl j hje, hhead]
  exact Finset.sum_congr rfl fun s hs =>
    if_pos (lt_trans (Finset.mem_range.mp hs) hjn)

/-- C1: for every `n > 0` and every input sequence `x` of `n` 32-bit integers,
`scan(n, x)` returns a sequence of length `n` with `scan(n, x)[0] = 0` and
`scan(n, x)[k] = scan(n, x)[k-1] + x[k-1]` for every `1 ≤ k < n` (position `k`
holds the 32-bit sum of `x[0..k-1]`), for any power-of-two group capacity
`2^lb ≥ 2` and any contents of the freshly allocated device buffers. -/
theorem C1_scan_exclusive (lb : Nat) (n : Int) (x : Nat → V) (mem : Nat → Lvl)
    (hlb : 1 ≤ lb) (hn : 0 < n) :
    (scan (2 ^ lb) n x mem).length = n.toNat ∧
      (scan (2 ^ lb) n x mem).getD 0 0 = 0 ∧
      ∀ k : Nat, 1 ≤ k → k < n.toNat →
        (scan (2 ^ lb) n x mem).getD k 0 =
          (scan (2 ^ lb) n x mem).getD (k - 1) 0 + x (k - 1) := by
  have hns : ¬ n ≤ 0 := by omega
  have hn1 : 1 ≤ n.toNat := by omega
  simp only [scan, if_neg hns]
  rw [scanDev_spec lb n.toNat hlb hn1 x mem]
  refine ⟨by simp, ?_, ?_⟩
  · rw [getD_map_range _ _ _ (by omega)]
    simp
  · intro k hk1 hk2
    rw [getD_map_range _ _ _ hk2, getD_map_range _ _ _ (by omega)]
    have hks : k = (k - 1) + 1 := by omega
    rw [hks, Finset.sum_range_succ]
    congr 2

theorem C1_scan_exclusive_witness :
    (1 ≤ 1 ∧ (0 : Int) < 6) ∧
      ((scan (2 ^ 1) 6 wInput garbageMem).length = (6 : Int).toNat ∧
        (scan (2 ^ 1) 6 wInput garbageMem).getD 0 0 = 0 ∧
        ∀ k : Nat, 1 ≤ k → k < (6 : Int).toNat →
          (scan (2 ^ 1) 6 wInput garbageMem).getD k 0 =
            (scan (2 ^ 1) 6 wInput garbageMem).getD (k - 1) 0 +
              wInput (k - 1)) :=
  ⟨⟨le_rfl, by decide⟩, C1_scan_exclusive 1 6 wInput garbageMem le_rfl (by decide)⟩

/-! ### Degenerate sizes, padding, and the per-level invariant -/

/-- C8: for every `n ≤ 0` (including negative `n`), `compact(n, input)` returns
the value `n` itself as the count with an empty output, performing no work:
`n ≤ 0` is treated as a no-op, not an error. -/
theorem C8_compact_nonpositive (B : Nat) (n : Int) (x : Nat → V)
    (mem : Nat → Lvl) (odataInit boolsInit : Nat → V) (hn : n ≤ 0) :
    compact B n x mem odataInit boolsInit = ([], n) := by
  simp [compact, hn]

theorem C8_compact_nonpositive_witness :
    (-2 : Int) ≤ 0 ∧
      compact 4 (-2) wInput garbageMem (fun _ => 9) (fun _ => 8) = ([], -2) :=
  ⟨by decide,
    C8_compact_nonpositive 4 (-2) wInput garbageMem (fun _ => 9) (fun _ => 8)
      (by decide)⟩

theorem levelSizesAux_length_pos (fuel B len : Nat) :
    0 < (levelSizesAux fuel B len).length := by
  cases fuel <;> simp [levelSizesAux]

/-- C7 counterexample: the claim that, before the first kernel launch, `scan`'s
level-0 input buffer holds `0` at every padded position in `[n, nPad)` is
false: with `n = 3`, `nPad = 4` and freshly allocated buffers containing
`111`, position 3 holds `111`, not `0` (efficient.cu:93-94 copies only `n`
elements and never memsets). -/
theorem C7_counterexample :
    ¬ (∀ j : Nat, 3 ≤ j → j < 2 ^ ilog2ceil 3 →
        (scanInitLvls (2 ^ 2) 3 wInput garbageMem).headI.idata j = 0) := by
  intro h
  exact absurd (h 3 (by decide) (by decide)) (by decide)

/-- C7 amended: before the first kernel launch, level 0's input buffer holds
the caller's input at positions `0..n-1`, but the padded positions `≥ n` keep
whatever the freshly allocated buffer already held (no zeroing in `scan`);
`compact`, by contrast, does zero its padded work array beyond `n`. -/
theorem C7_scan_pad_not_zeroed (B n : Nat) (x : Nat → V) (mem : Nat → Lvl) :
    (∀ j, j < n → (scanInitLvls B n x mem).headI.idata j = x j) ∧
      (∀ j, n ≤ j →
        (scanInitLvls B n x mem).headI.idata j = (mem 0).idata j) ∧
      (∀ j, n ≤ j → paddedInput n x j = 0) := by
  have hpos : 0 < (levelSizes B (2 ^ ilog2ceil n)).length :=
    levelSizesAux_length_pos (2 ^ ilog2ceil n) B (2 ^ ilog2ceil n)
  have hhead : (scanInitLvls B n x mem).headI.idata =
      fun j => if j < n then x j else (mem 0).idata j := by
    rw [scanInitLvls, mkLvls_headI hpos]
  refine ⟨?_, ?_, ?_⟩
  · intro j hj; rw [hhead]; exact if_pos hj
  · intro j hj; rw [hhead]; exact if_neg (by omega)
  · intro j hj; simp only [paddedInput]; exact if_neg (by omega)

theorem C7_scan_pad_not_zeroed_witness :
    (scanInitLvls 4 3 wInput garbageMem).headI.idata 1 = wInput 1 ∧
      (scanInitLvls 4 3 wInput garbageMem).headI.idata 3 =
        (garbageMem 0).idata 3 ∧
      paddedInput 3 wInput 3 = 0 :=
  ⟨(C7_scan_pad_not_zeroed 4 3 wInput garbageMem).1 1 (by decide),
    (C7_scan_pad_not_zeroed 4 3 wInput garbageMem).2.1 3 (by decide),
    (C7_scan_pad_not_zeroed 4 3 wInput garbageMem).2.2 3 (by decide)⟩

/-- C6: for every `n > 0` that is not a power of two, `scan(n, x)` equals the
first `n` elements of the scan of the zero-padded array of length
`nPad = 2^ceil(log2 n)` — regardless of the garbage in either run's
buffers. -/
theorem C6_padding_idempotent (lb : Nat) (n : Int) (x : Nat → V)
    (mem mem2 : Nat → Lvl) (hlb : 1 ≤ lb) (hn : 0 < n)
    (hnp : ¬ ∃ k : Nat, n.toNat = 2 ^ k) :
    scan (2 ^ lb) n x mem =
      (scan (2 ^ lb) ((2 ^ ilog2ceil n.toNat : Nat) : Int)
          (paddedInput n.toNat x) mem2).take n.toNat := by
  have hns : ¬ n ≤ 0 := by omega
  have hN1 : 1 ≤ n.toNat := by omega
  have hpadpos : (0 : Int) < ((2 ^ ilog2ceil n.toNat : Nat) : Int) := by
    have : (0 : Nat) < 2 ^ ilog2ceil n.toNat := by positivity
    exact_mod_cast this
  have hpadns : ¬ ((2 ^ ilog2ceil n.toNat : Nat) : Int) ≤ 0 := by omega
  have htoNat : (((2 ^ ilog2ceil n.toNat : Nat) : Int)).toNat =
      2 ^ ilog2ceil n.toNat := Int.toNat_natCast _
  simp only [scan, if_neg hns, if_neg hpadns, htoNat]
  rw [scanDev_spec lb n.toNat hlb hN1 x mem,
    scanDev_spec lb (2 ^ ilog2ceil n.toNat) hlb Nat.one_le_two_pow
      (paddedInput n.toNat x) mem2]
  rw [← List.map_take, List.take_range,
    min_eq_left (le_pow_ilog2ceil n.toNat)]
  refine List.map_congr_left ?_
  intro j hj
  have hjn : j < n.toNat := List.mem_range.mp hj
  refine Finset.sum_congr rfl fun s hs => ?_
  have hsn : s < n.toNat := lt_trans (Finset.mem_range.mp hs) hjn
  simp only [paddedInput]
  rw [if_pos hsn]

theorem six_not_two_pow : ¬ ∃ k : Nat, (6 : Int).toNat = 2 ^ k := by
  rintro ⟨k, hk⟩
  have h3 : k < 3 := by
    by_contra hc
    push_neg at hc
    have h8 : (8 : Nat) ≤ 2 ^ k := by
      calc (8 : Nat) = 2 ^ 3 := by norm_num
        _ ≤ 2 ^ k := Nat.pow_le_pow_right (by omega) hc
    omega
  interval_cases k <;> omega

theorem C6_padding_idempotent_witness :
    (1 ≤ 1 ∧ (0 : Int) < 6 ∧ ¬ ∃ k : Nat, (6 : Int).toNat = 2 ^ k) ∧
      scan (2 ^ 1) 6 wInput garbageMem =
        (scan (2 ^ 1) ((2 ^ ilog2ceil (6 : Int).toNat : Nat) : Int)
            (paddedInput (6 : Int).toNat wInput) garbageMem).take
          (6 : Int).toNat :=
  ⟨⟨le_rfl, by decide, six_not_two_pow⟩,
    C6_padding_idempotent 1 6 wInput garbageMem garbageMem le_rfl (by decide)
      six_not_two_pow⟩

/-- C3: for `n` larger than one group's capacity (forcing at least two
decomposition levels), the multi-level scan is bit-identical on its `n` output
elements to the single-level in-group algorithm run with unlimited group
capacity: the decomposition causes no observable behaviour change. -/
theorem C3_cross_level_consistency (lb : Nat) (n : Int) (x : Nat → V)
    (mem : Nat → Lvl) (hlb : 1 ≤ lb) (hcap : ((2 ^ lb : Nat) : Int) < n) :
    scan (2 ^ lb) n x mem = singleLevelScan n.toNat x := by
  have hB1 : (0 : Nat) < 2 ^ lb := by positivity
  have hBpos : (0 : Int) < ((2 ^ lb : Nat) : Int) := by exact_mod_cast hB1
  have hn : 0 < n := lt_trans hBpos hcap
  have hns : ¬ n ≤ 0 := by omega
  have hN1 : 1 ≤ n.toNat := by omega
  simp only [scan, if_neg hns]
  rw [scanDev_spec lb n.toNat hlb hN1 x mem]
  simp only [singleLevelScan]
  refine List.map_congr_left ?_
  intro j hj
  have hjn : j < n.toNat := List.mem_range.mp hj
  have hje : j < 2 ^ ilog2ceil n.toNat := lt_of_lt_of_le hjn (le_pow_ilog2ceil _)
  simp only [kernShiftToExclusive]
  rw [if_pos (lt_min hje (by rw [one_mul]; exact hje))]
  by_cases hj0 : j = 0
  · subst hj0; simp
  · rw [if_neg hj0]
    have hg1 : (2 : Nat) ^ ilog2ceil n.toNat ≤ 1 * 2 ^ ilog2ceil n.toNat := by
      rw [one_mul]
    rw [kernScanInclusive_spec (ilog2ceil n.toNat) (ilog2ceil n.toNat) 1 hg1
      (paddedInput n.toNat x) (fun _ => 0) (j - 1) (by omega)]
    have hdiv0 : (j - 1) / 2 ^ ilog2ceil n.toNat = 0 :=
      Nat.div_eq_of_lt (by omega)
    rw [hdiv0, Nat.mul_zero]
    have hj1 : j - 1 + 1 = j := by omega
    rw [hj1, Finset.range_eq_Ico]
    refine Finset.sum_congr rfl fun s hs => ?_
    have hsn : s < n.toNat := lt_trans (Finset.mem_Ico.mp hs).2 hjn
    simp only [paddedInput]
    rw [if_pos hsn]

theorem C3_cross_level_consistency_witness :
    (1 ≤ 1 ∧ ((2 ^ 1 : Nat) : Int) < 6) ∧
      scan (2 ^ 1) 6 wInput garbageMem = singleLevelScan (6 : Int).toNat wInput :=
  ⟨⟨le_rfl, by decide⟩,
    C3_cross_level_consistency 1 6 wInput garbageMem le_rfl (by decide)⟩

/-- C4: at every decomposition level (each level of the upward pass is exactly
one `upLevel`-plus-extraction instance on that level's input), after the
in-group scan and before cross-level offset propagation, the last scratch-slot
of every group `b` holds that group's total sum, and this value is exactly
what `kernExtractLastElementPerBlock` writes as element `b` of the next
level's input buffer. -/
theorem C4_group_totals (lb e : Nat) (l l2 : Lvl) (b : Nat)
    (hb : b < (2 ^ e + 2 ^ lb - 1) / 2 ^ lb) :
    (upLevel (2 ^ lb) (2 ^ e) l).buffer
        (b * 2 ^ lb + min (2 ^ lb) (2 ^ e) - 1) =
      (∑ s ∈ Finset.Ico (b * 2 ^ lb) (b * 2 ^ lb + min (2 ^ lb) (2 ^ e)),
        l.idata s) ∧
    kernExtractLastElementPerBlock ((2 ^ e + 2 ^ lb - 1) / 2 ^ lb) (2 ^ lb)
        (2 ^ e) l2.idata (upLevel (2 ^ lb) (2 ^ e) l).idata b =
      (upLevel (2 ^ lb) (2 ^ e) l).buffer
        (b * 2 ^ lb + min (2 ^ lb) (2 ^ e) - 1) := by
  have hB1 : (0 : Nat) < 2 ^ lb := by positivity
  have hpe : (0 : Nat) < 2 ^ e := by positivity
  have hgB : (2 : Nat) ^ e ≤ ((2 ^ e + 2 ^ lb - 1) / 2 ^ lb) * 2 ^ lb :=
    ceil_mul_ge hB1 _
  have hcm : 2 ^ lb * b = b * 2 ^ lb := Nat.mul_comm _ _
  have hbuf : (upLevel (2 ^ lb) (2 ^ e) l).buffer =
      (kernScanInclusive ((2 ^ e + 2 ^ lb - 1) / 2 ^ lb) (2 ^ lb) (2 ^ e)
        l.buffer l.idata).1 := rfl
  rcases le_total e lb with hel | hel
  · have hmin : min (2 ^ lb) (2 ^ e) = 2 ^ e :=
      min_eq_right (Nat.pow_le_pow_right (by omega) hel)
    have hg1 : (2 ^ e + 2 ^ lb - 1) / 2 ^ lb = 1 :=
      ceil_div_small hB1 Nat.one_le_two_pow
        (Nat.pow_le_pow_right (by omega) hel)
    have hb0 : b = 0 := by omega
    subst hb0
    rw [hmin]
    simp only [Nat.zero_mul, Nat.zero_add]
    have hlt : 2 ^ e - 1 < 2 ^ e := by omega
    constructor
    · rw [hbuf, kernScanInclusive_spec lb e _ hgB l.idata l.buffer (2 ^ e - 1)
        hlt]
      have hd0 : (2 ^ e - 1) / 2 ^ lb = 0 := Nat.div_eq_of_lt (by
        have := Nat.pow_le_pow_right (show 1 ≤ 2 by omega) hel
        omega)
      rw [hd0, Nat.mul_zero]
      have hup : 2 ^ e - 1 + 1 = 2 ^ e := by omega
      rw [hup]
    · simp only [kernExtractLastElementPerBlock]
      rw [if_pos ⟨by omega, by omega⟩]
      have h1 : min ((0 + 1) * 2 ^ lb) (2 ^ e) = 2 ^ e := by
        have h2 : (0 + 1) * 2 ^ lb = 2 ^ lb := by ring
        rw [h2]
        exact min_eq_right (Nat.pow_le_pow_right (by omega) hel)
      rw [h1]
      simp only [upLevel]
      rw [if_pos hlt]
  · have hmin : min (2 ^ lb) (2 ^ e) = 2 ^ lb :=
      min_eq_left (Nat.pow_le_pow_right (by omega) hel)
    rw [hmin]
    have hdvd : (2 : Nat) ^ lb ∣ 2 ^ e := pow_dvd_pow 2 hel
    have hgs : (2 ^ e + 2 ^ lb - 1) / 2 ^ lb = 2 ^ e / 2 ^ lb :=
      ceil_div_dvd hB1 hdvd
    have hmuldiv : 2 ^ e / 2 ^ lb * 2 ^ lb = 2 ^ e := Nat.div_mul_cancel hdvd
    have hble : (b + 1) * 2 ^ lb ≤ 2 ^ e := by
      have hb1 : b + 1 ≤ 2 ^ e / 2 ^ lb := by omega
      calc (b + 1) * 2 ^ lb ≤ 2 ^ e / 2 ^ lb * 2 ^ lb :=
            Nat.mul_le_mul_right _ hb1
        _ = 2 ^ e := hmuldiv
    have hsm : (b + 1) * 2 ^ lb = b * 2 ^ lb + 2 ^ lb := Nat.succ_mul b _
    constructor
    · rw [hbuf, kernScanInclusive_spec lb e _ hgB l.idata l.buffer
        (b * 2 ^ lb + 2 ^ lb - 1) (by omega)]
      have hshape : b * 2 ^ lb + 2 ^ lb - 1 = 2 ^ lb * b + (2 ^ lb - 1) := by
        omega
      have hdb : (b * 2 ^ lb + 2 ^ lb - 1) / 2 ^ lb = b := by
        rw [hshape]; exact div_block hB1 (by omega)
      rw [hdb, hcm]
      have hup : b * 2 ^ lb + 2 ^ lb - 1 + 1 = b * 2 ^ lb + 2 ^ lb := by omega
      rw [hup]
    · simp only [kernExtractLastElementPerBlock]
      rw [if_pos ⟨by omega, by omega⟩]
      rw [min_eq_left hble]
      simp only [upLevel]
      rw [if_pos (by omega : (b + 1) * 2 ^ lb - 1 < 2 ^ e), hsm]

theorem C4_group_totals_witness :
    (1 < (2 ^ 2 + 2 ^ 1 - 1) / 2 ^ 1) ∧
      ((upLevel (2 ^ 1) (2 ^ 2) ⟨wInput, wInput, wInput⟩).buffer
          (1 * 2 ^ 1 + min (2 ^ 1) (2 ^ 2) - 1) =
        (∑ s ∈ Finset.Ico (1 * 2 ^ 1) (1 * 2 ^ 1 + min (2 ^ 1) (2 ^ 2)),
          (⟨wInput, wInput, wInput⟩ : Lvl).idata s) ∧
      kernExtractLastElementPerBlock ((2 ^ 2 + 2 ^ 1 - 1) / 2 ^ 1) (2 ^ 1)
          (2 ^ 2) (garbageMem 0).idata
          (upLevel (2 ^ 1) (2 ^ 2) ⟨wInput, wInput, wInput⟩).idata 1 =
        (upLevel (2 ^ 1) (2 ^ 2) ⟨wInput, wInput, wInput⟩).buffer
          (1 * 2 ^ 1 + min (2 ^ 1) (2 ^ 2) - 1)) :=
  ⟨by decide,
    C4_group_totals 1 2 ⟨wInput, wInput, wInput⟩ (garbageMem 0) 1 (by decide)⟩

/-! ### The compaction pipeline -/

theorem compactBools_eval (lb N : Nat) (x bInit : Nat → V) (j : Nat)
    (hj : j < 2 ^ ilog2ceil N) :
    compactBools (2 ^ lb) N x bInit j =
      if paddedInput N x j ≠ 0 then 1 else 0 := by
  have hB1 : (0 : Nat) < 2 ^ lb := by positivity
  have hg := ceil_mul_ge hB1 (2 ^ ilog2ceil N)
  simp only [compactBools, kernMapToBoolean]
  rw [if_pos (lt_min hj (lt_of_lt_of_le hj hg))]

theorem compactIndices_spec (lb N : Nat) (hlb : 1 ≤ lb) (x : Nat → V)
    (mem : Nat → Lvl) (bInit : Nat → V) (j : Nat)
    (hj : j < 2 ^ ilog2ceil N) :
    compactIndices (2 ^ lb) N x mem bInit j =
      ∑ s ∈ Finset.range j, compactBools (2 ^ lb) N x bInit s := by
  have hB2 : 2 ≤ (2 : Nat) ^ lb := two_le_pow hlb
  have hnp : 1 ≤ 2 ^ ilog2ceil N := Nat.one_le_two_pow
  obtain ⟨hch, hhd⟩ := levelSizes_chain (B := 2 ^ lb) hB2 hnp
  have hlen0 := levelSizes_length_pos hB2 hnp
  simp only [compactIndices]
  set f : Nat → V := fun j2 =>
    if j2 < 2 ^ ilog2ceil N then compactBools (2 ^ lb) N x bInit j2
    else (mem 0).idata j2 with hf
  have hpl := pipeline_spec lb (levelSizes (2 ^ lb) (2 ^ ilog2ceil N)) hch
    (ilog2ceil N) hhd
    (mkLvls (levelSizes (2 ^ lb) (2 ^ ilog2ceil N)).length mem f)
    (mkLvls_length _ _ _)
  rw [hpl j hj, mkLvls_headI hlen0 mem f]
  refine Finset.sum_congr rfl fun s hs => ?_
  show f s = _
  rw [hf]
  exact if_pos (lt_trans (Finset.mem_range.mp hs) hj)

theorem sum_mask_eq_len (x2 : Nat → V) :
    ∀ j, (∑ s ∈ Finset.range j, if x2 s ≠ 0 then (1 : V) else 0) =
      ((((List.range j).map x2).filter (fun v => decide (v ≠ 0))).length : V) := by
  intro j
  induction j with
  | zero => simp
  | succ j ih =>
    rw [Finset.sum_range_succ, ih, List.range_succ, List.map_append,
      List.filter_append]
    simp only [List.map_cons, List.map_nil, List.length_append]
    by_cases hx : x2 j ≠ 0
    · rw [if_pos hx]
      have hsing : List.filter (fun v => decide (v ≠ 0)) [x2 j] = [x2 j] := by
        simp [List.filter_cons, hx]
      rw [hsing]
      have h1 : ([x2 j] : List V).length = 1 := rfl
      rw [h1]
      push_cast
      ring
    · rw [if_neg hx]
      push_neg at hx
      have hsing : List.filter (fun v => decide (v ≠ 0)) [x2 j] = [] := by
        simp [List.filter_cons, hx]
      rw [hsing]
      simp

theorem map_filter_stable (N : Nat) (x : Nat → V) :
    ∀ m, N ≤ m →
      ((List.range m).map (paddedInput N x)).filter (fun v => decide (v ≠ 0)) =
        ((List.range N).map (paddedInput N x)).filter
          (fun v => decide (v ≠ 0)) := by
  intro m
  induction m with
  | zero =>
    intro h
    have h0 : N = 0 := by omega
    simp [h0]
  | succ m ih =>
    intro h
    rcases Nat.lt_or_ge m N with h2 | h2
    · have hNm : N = m + 1 := by omega
      rw [hNm]
    · rw [List.range_succ, List.map_append, List.filter_append, ih h2]
      have hx0 : paddedInput N x m = 0 := by
        simp only [paddedInput]
        rw [if_neg (by omega)]
      simp [hx0]

theorem map_padded_eq (N : Nat) (x : Nat → V) (m : Nat) (hm : m ≤ N) :
    (List.range m).map (paddedInput N x) = (List.range m).map x :=
  List.map_congr_left fun s hs => by
    simp only [paddedInput]
    exact if_pos (lt_of_lt_of_le (List.mem_range.mp hs) hm)

theorem filt_len_le (m : Nat) (f : Nat → V) :
    (((List.range m).map f).filter (fun v => decide (v ≠ 0))).length ≤ m := by
  calc (((List.range m).map f).filter (fun v => decide (v ≠ 0))).length
      ≤ ((List.range m).map f).length := List.length_filter_le _ _
    _ = m := by simp

theorem getD_concat_self (l : List V) (a : V) :
    (l ++ [a]).getD l.length 0 = a := by
  rw [List.getD_eq_getElem?_getD, List.getElem?_concat_length]
  rfl

theorem getD_append_left (l l2 : List V) (p : Nat) (hp : p < l.length) :
    (l ++ l2).getD p 0 = l.getD p 0 := by
  rw [List.getD_eq_getElem?_getD, List.getD_eq_getElem?_getD,
    List.getElem?_append, if_pos hp]

/-- The scatter fold: processing indices `0, …, M-1` in order, each kept
element is written to the next free output slot; afterwards the first
`keptCount` cells hold the kept elements in their original order and every
other cell still holds the initial contents. -/
theorem scatter_fold_spec (x2 bools dest o0 : Nat → V) :
    ∀ M, (∀ j, j < M → (bools j = 1 ↔ x2 j ≠ 0)) →
      (∀ j, j < M → x2 j ≠ 0 → (dest j).val =
        (((List.range j).map x2).filter (fun v => decide (v ≠ 0))).length) →
      ∀ p,
      (p < (((List.range M).map x2).filter (fun v => decide (v ≠ 0))).length →
        (List.range M).foldl
            (fun (o : Nat → V) j => if bools j = 1 then
              Function.update o (dest j).val (x2 j) else o) o0 p =
          (((List.range M).map x2).filter (fun v => decide (v ≠ 0))).getD p 0) ∧
      ((((List.range M).map x2).filter (fun v => decide (v ≠ 0))).length ≤ p →
        (List.range M).foldl
            (fun (o : Nat → V) j => if bools j = 1 then
              Function.update o (dest j).val (x2 j) else o) o0 p = o0 p) := by
  intro M
  induction M with
  | zero =>
    intro _ _ p
    refine ⟨fun hp => ?_, fun _ => ?_⟩
    · simp at hp
    · simp
  | succ M ihM =>
    intro hb hd p
    have ih := ihM (fun j hj => hb j (by omega)) (fun j hj => hd j (by omega))
    set L := (((List.range M).map x2).filter (fun v => decide (v ≠ 0))).length
      with hL
    have hsplit : ((List.range (M + 1)).map x2).filter (fun v => decide (v ≠ 0)) =
        (((List.range M).map x2).filter (fun v => decide (v ≠ 0))) ++
          List.filter (fun v => decide (v ≠ 0)) [x2 M] := by
      rw [List.range_succ, List.map_append, List.filter_append]
      rfl
    have hfold : ∀ q, (List.range (M + 1)).foldl
        (fun (o : Nat → V) j => if bools j = 1 then
          Function.update o (dest j).val (x2 j) else o) o0 q =
        (if bools M = 1 then
          Function.update ((List.range M).foldl
            (fun (o : Nat → V) j => if bools j = 1 then
              Function.update o (dest j).val (x2 j) else o) o0)
            (dest M).val (x2 M)
        else (List.range M).foldl
            (fun (o : Nat → V) j => if bools j = 1 then
              Function.update o (dest j).val (x2 j) else o) o0) q := by
      intro q
      rw [List.range_succ, List.foldl_append, List.foldl_cons, List.foldl_nil]
    by_cases hx : x2 M ≠ 0
    · have hbM : bools M = 1 := (hb M (by omega)).mpr hx
      have hsing : List.filter (fun v => decide (v ≠ 0)) [x2 M] = [x2 M] := by
        simp [List.filter_cons, hx]
      have hlen : (((List.range (M + 1)).map x2).filter
          (fun v => decide (v ≠ 0))).length = L + 1 := by
        rw [hsplit, hsing, List.length_append]
        rfl
      constructor
      · intro hp
        rw [hlen] at hp
        rw [hfold p, if_pos hbM, hd M (by omega) hx]
        rcases Nat.lt_or_ge p L with hpL | hpL
        · rw [Function.update_noteq (by omega)]
          rw [(ih p).1 hpL, hsplit, hsing]
          exact (getD_append_left _ _ p hpL).symm
        · have hpe : p = L := by omega
          subst hpe
          rw [Function.update_same, hsplit, hsing]
          exact (getD_concat_self _ _).symm
      · intro hp
        rw [hlen] at hp
        rw [hfold p, if_pos hbM, hd M (by omega) hx, Function.update_noteq (by omega)]
        exact (ih p).2 (by omega)
    · have hbM : ¬ bools M = 1 := fun hc => hx ((hb M (by omega)).mp hc)
      have hx0 : x2 M = 0 := by push_neg at hx; exact hx
      have hsing0 : List.filter (fun v => decide (v ≠ 0)) [x2 M] = [] := by
        simp [List.filter_cons, hx0]
      have hlen0 : ((List.range (M + 1)).map x2).filter
          (fun v => decide (v ≠ 0)) =
          ((List.range M).map x2).filter (fun v => decide (v ≠ 0)) := by
        rw [hsplit, hsing0, List.append_nil]
      constructor
      · intro hp
        rw [hlen0] at hp
        rw [hfold p, if_neg hbM, hlen0]
        exact (ih p).1 hp
      · intro hp
        rw [hlen0] at hp
        rw [hfold p, if_neg hbM]
        exact (ih p).2 hp

theorem ite_one_iff (c : Prop) [Decidable c] :
    ((if c then (1 : V) else 0) = 1 ↔ c) := by
  constructor
  · intro h1
    by_contra hc
    rw [if_neg hc] at h1
    exact absurd h1 (by decide)
  · intro hc
    rw [if_pos hc]

theorem compactIndices_cast (lb N : Nat) (hlb : 1 ≤ lb) (x : Nat → V)
    (mem : Nat → Lvl) (bInit : Nat → V) (j : Nat)
    (hj : j < 2 ^ ilog2ceil N) :
    compactIndices (2 ^ lb) N x mem bInit j =
      ((((List.range j).map (paddedInput N x)).filter
        (fun v => decide (v ≠ 0))).length : V) := by
  rw [compactIndices_spec lb N hlb x mem bInit j hj,
    ← sum_mask_eq_len (paddedInput N x) j]
  refine Finset.sum_congr rfl fun s hs => ?_
  rw [compactBools_eval lb N x bInit s (lt_trans (Finset.mem_range.mp hs) hj)]

theorem compactIndices_val (lb N : Nat) (hlb : 1 ≤ lb) (x : Nat → V)
    (mem : Nat → Lvl) (bInit : Nat → V) (j : Nat)
    (hj : j < 2 ^ ilog2ceil N) (hpad : 2 ^ ilog2ceil N < 2 ^ 32) :
    (compactIndices (2 ^ lb) N x mem bInit j).val =
      (((List.range j).map (paddedInput N x)).filter
        (fun v => decide (v ≠ 0))).length := by
  rw [compactIndices_cast lb N hlb x mem bInit j hj]
  have hlen : (((List.range j).map (paddedInput N x)).filter
      (fun v => decide (v ≠ 0))).length < 2 ^ 32 :=
    lt_of_le_of_lt (le_trans (filt_len_le j _) (le_of_lt hj)) hpad
  exact ZMod.val_cast_of_lt hlen

/-- The joint correctness statement for `compact` with `n > 0`: the output
list has length `n`; the returned count is the number of nonzero input
elements; and the first count cells of the output are exactly the nonzero
elements in their original order. -/
theorem compact_master (lb : Nat) (n : Int) (x : Nat → V) (mem : Nat → Lvl)
    (oInit bInit : Nat → V) (hlb : 1 ≤ lb) (hn : 0 < n) (hsize : n < 2 ^ 31) :
    (compact (2 ^ lb) n x mem oInit bInit).1.length = n.toNat ∧
    (compact (2 ^ lb) n x mem oInit bInit).2 =
      (((((List.range n.toNat).map x).filter
        (fun v => decide (v ≠ 0))).length : Nat) : Int) ∧
    (compact (2 ^ lb) n x mem oInit bInit).1.take
        ((((List.range n.toNat).map x).filter
          (fun v => decide (v ≠ 0))).length) =
      ((List.range n.toNat).map x).filter (fun v => decide (v ≠ 0)) := by
  have hns : ¬ n ≤ 0 := by omega
  have hN1 : 1 ≤ n.toNat := by omega
  have hNsize : n.toNat < 2 ^ 31 := by omega
  have hil : ilog2ceil n.toNat ≤ 31 := ilog2ceil_le (by omega : n.toNat ≤ 2 ^ 31)
  have hpad31 : (2 : Nat) ^ ilog2ceil n.toNat ≤ 2 ^ 31 :=
    Nat.pow_le_pow_right (by omega) hil
  have hpad32 : (2 : Nat) ^ ilog2ceil n.toNat < 2 ^ 32 :=
    lt_of_le_of_lt hpad31 (by norm_num)
  have hNpad : n.toNat ≤ 2 ^ ilog2ceil n.toNat := le_pow_ilog2ceil _
  have hB1 : (0 : Nat) < 2 ^ lb := by positivity
  have hminP : min (2 ^ ilog2ceil n.toNat)
      (((2 ^ ilog2ceil n.toNat + 2 ^ lb - 1) / 2 ^ lb) * 2 ^ lb) =
      2 ^ ilog2ceil n.toNat := min_eq_left (ceil_mul_ge hB1 _)
  have hbH : ∀ j, j < 2 ^ ilog2ceil n.toNat →
      (compactBools (2 ^ lb) n.toNat x bInit j = 1 ↔
        paddedInput n.toNat x j ≠ 0) := by
    intro j hj
    rw [compactBools_eval lb n.toNat x bInit j hj]
    exact ite_one_iff _
  have hdH : ∀ j, j < 2 ^ ilog2ceil n.toNat → paddedInput n.toNat x j ≠ 0 →
      (compactIndices (2 ^ lb) n.toNat x mem bInit j).val =
        (((List.range j).map (paddedInput n.toNat x)).filter
          (fun v => decide (v ≠ 0))).length := fun j hj _ =>
    compactIndices_val lb n.toNat hlb x mem bInit j hj hpad32
  have hscatter := scatter_fold_spec (paddedInput n.toNat x)
    (compactBools (2 ^ lb) n.toNat x bInit)
    (compactIndices (2 ^ lb) n.toNat x mem bInit) oInit
    (2 ^ ilog2ceil n.toNat) hbH hdH
  have hsc : kernScatter ((2 ^ ilog2ceil n.toNat + 2 ^ lb - 1) / 2 ^ lb)
      (2 ^ lb) (2 ^ ilog2ceil n.toNat) oInit (paddedInput n.toNat x)
      (compactBools (2 ^ lb) n.toNat x bInit)
      (compactIndices (2 ^ lb) n.toNat x mem bInit) =
      (List.range (2 ^ ilog2ceil n.toNat)).foldl
        (fun (o : Nat → V) j =>
          if compactBools (2 ^ lb) n.toNat x bInit j = 1 then
            Function.update o
              ((compactIndices (2 ^ lb) n.toNat x mem bInit j).val)
              (paddedInput n.toNat x j)
          else o) oInit := by
    simp only [kernScatter, hminP]
  have hfiltstable := map_filter_stable n.toNat x (2 ^ ilog2ceil n.toNat) hNpad
  have hfiltx : ((List.range n.toNat).map (paddedInput n.toNat x)).filter
      (fun v => decide (v ≠ 0)) =
      ((List.range n.toNat).map x).filter (fun v => decide (v ≠ 0)) := by
    rw [map_padded_eq n.toNat x n.toNat le_rfl]
  have hlen_le : (((List.range n.toNat).map x).filter
      (fun v => decide (v ≠ 0))).length ≤ n.toNat := by
    rw [← hfiltx]
    exact filt_len_le _ _
  simp only [compact, if_neg hns]
  refine ⟨by simp, ?_, ?_⟩
  · -- the returned count
    show toSigned
        (compactIndices (2 ^ lb) n.toNat x mem bInit (n.toNat - 1) +
          compactBools (2 ^ lb) n.toNat x bInit (n.toNat - 1)) = _
    rw [compactIndices_cast lb n.toNat hlb x mem bInit (n.toNat - 1) (by omega),
      compactBools_eval lb n.toNat x bInit (n.toNat - 1) (by omega)]
    have h1 := sum_mask_eq_len (paddedInput n.toNat x) (n.toNat - 1)
    have h2 := sum_mask_eq_len (paddedInput n.toNat x) n.toNat
    have h3 : n.toNat = (n.toNat - 1) + 1 := by omega
    have h4 : ((((List.range (n.toNat - 1)).map (paddedInput n.toNat x)).filter
        (fun v => decide (v ≠ 0))).length : V) +
        (if paddedInput n.toNat x (n.toNat - 1) ≠ 0 then (1 : V) else 0) =
        ((((List.range n.toNat).map (paddedInput n.toNat x)).filter
          (fun v => decide (v ≠ 0))).length : V) := by
      rw [← h1, ← h2]
      have h5 : Finset.range n.toNat = Finset.range (n.toNat - 1 + 1) := by
        rw [← h3]
      rw [h5, Finset.sum_range_succ]
    rw [h4, hfiltx]
    have hvlt : (((List.range n.toNat).map x).filter
        (fun v => decide (v ≠ 0))).length < 2 ^ 32 := by
      have := hlen_le
      omega
    simp only [toSigned]
    rw [ZMod.val_cast_of_lt hvlt, if_pos (by omega)]
  · -- the compacted elements, in order
    show ((List.range n.toNat).map fun j =>
        kernScatter ((2 ^ ilog2ceil n.toNat + 2 ^ lb - 1) / 2 ^ lb) (2 ^ lb)
          (2 ^ ilog2ceil n.toNat) oInit (paddedInput n.toNat x)
          (compactBools (2 ^ lb) n.toNat x bInit)
          (compactIndices (2 ^ lb) n.toNat x mem bInit) j).take
        ((((List.range n.toNat).map x).filter
          (fun v => decide (v ≠ 0))).length) =
      ((List.range n.toNat).map x).filter (fun v => decide (v ≠ 0))
    rw [← List.map_take, List.take_range, min_eq_left hlen_le]
    refine List.ext_getElem (by simp) ?_
    intro p hp1 hp2
    simp only [List.getElem_map, List.getElem_range]
    have hplen : p < (((List.range n.toNat).map x).filter
        (fun v => decide (v ≠ 0))).length := by
      simp at hp1
      omega
    have hppad : p < (((List.range (2 ^ ilog2ceil n.toNat)).map
        (paddedInput n.toNat x)).filter (fun v => decide (v ≠ 0))).length := by
      rw [hfiltstable, hfiltx]
      exact hplen
    rw [hsc]
    rw [(hscatter p).1 hppad, hfiltstable, hfiltx]
    rw [List.getD_eq_getElem?_getD, List.getElem?_eq_getElem hplen]
    rfl

theorem filtlen_succ (f : Nat → V) (i : Nat) :
    (((List.range (i + 1)).map f).filter (fun v => decide (v ≠ 0))).length =
      (((List.range i).map f).filter (fun v => decide (v ≠ 0))).length +
        (List.filter (fun v => decide (v ≠ 0)) [f i]).length := by
  rw [List.range_succ, List.map_append, List.filter_append, List.length_append]
  rfl

theorem filtlen_mono (f : Nat → V) (a : Nat) : ∀ b, a ≤ b →
    (((List.range a).map f).filter (fun v => decide (v ≠ 0))).length ≤
      (((List.range b).map f).filter (fun v => decide (v ≠ 0))).length := by
  intro b
  induction b with
  | zero =>
    intro hab
    have h0 : a = 0 := by omega
    rw [h0]
  | succ b ih =>
    intro hab
    rcases Nat.lt_or_ge a (b + 1) with h | h
    · have := ih (by omega)
      rw [filtlen_succ]
      omega
    · have hae : a = b + 1 := by omega
      rw [hae]

/-- C2: for every `n > 0` and every int32 input, `compact(n, input)` returns a
pair `(output, keptCount)` where `keptCount` is the number of nonzero elements
of `input[0..n-1]`, the first `keptCount` cells of `output` are exactly those
nonzero elements in their original relative order, and `output` has length
`n` (its cells beyond `keptCount` are unspecified). -/
theorem C2_compact_correct (lb : Nat) (n : Int) (x : Nat → V)
    (mem : Nat → Lvl) (oInit bInit : Nat → V) (hlb : 1 ≤ lb) (hn : 0 < n)
    (hsize : n < 2 ^ 31) :
    (compact (2 ^ lb) n x mem oInit bInit).2 =
      (((((List.range n.toNat).map x).filter
        (fun v => decide (v ≠ 0))).length : Nat) : Int) ∧
    (compact (2 ^ lb) n x mem oInit bInit).1.take
        ((((List.range n.toNat).map x).filter
          (fun v => decide (v ≠ 0))).length) =
      ((List.range n.toNat).map x).filter (fun v => decide (v ≠ 0)) ∧
    (compact (2 ^ lb) n x mem oInit bInit).1.length = n.toNat := by
  obtain ⟨h1, h2, h3⟩ := compact_master lb n x mem oInit bInit hlb hn hsize
  exact ⟨h2, h3, h1⟩

theorem C2_compact_correct_witness :
    (1 ≤ 1 ∧ (0 : Int) < 6 ∧ (6 : Int) < 2 ^ 31) ∧
      ((compact (2 ^ 1) 6 wInput garbageMem (fun _ => 99) (fun _ => 55)).2 =
        (((((List.range (6 : Int).toNat).map wInput).filter
          (fun v => decide (v ≠ 0))).length : Nat) : Int) ∧
      (compact (2 ^ 1) 6 wInput garbageMem (fun _ => 99) (fun _ => 55)).1.take
          ((((List.range (6 : Int).toNat).map wInput).filter
            (fun v => decide (v ≠ 0))).length) =
        ((List.range (6 : Int).toNat).map wInput).filter
          (fun v => decide (v ≠ 0)) ∧
      (compact (2 ^ 1) 6 wInput garbageMem (fun _ => 99)
        (fun _ => 55)).1.length = (6 : Int).toNat) :=
  ⟨⟨le_rfl, by decide, by decide⟩,
    C2_compact_correct 1 6 wInput garbageMem (fun _ => 99) (fun _ => 55)
      le_rfl (by decide) (by decide)⟩

/-- C5: for every `n > 0`, `compact` derives its returned count solely as
`keptCount = destIndex[n-1] + mask[n-1]`, read at the original (unpadded) last
index `n-1`; and this value equals the number of nonzero elements of
`input[0..n-1]`. -/
theorem C5_count_from_last (lb : Nat) (n : Int) (x : Nat → V)
    (mem : Nat → Lvl) (oInit bInit : Nat → V) (hlb : 1 ≤ lb) (hn : 0 < n)
    (hsize : n < 2 ^ 31) :
    (compact (2 ^ lb) n x mem oInit bInit).2 =
      toSigned (compactIndices (2 ^ lb) n.toNat x mem bInit (n.toNat - 1) +
        compactBools (2 ^ lb) n.toNat x bInit (n.toNat - 1)) ∧
    (compact (2 ^ lb) n x mem oInit bInit).2 =
      (((((List.range n.toNat).map x).filter
        (fun v => decide (v ≠ 0))).length : Nat) : Int) := by
  refine ⟨?_, (compact_master lb n x mem oInit bInit hlb hn hsize).2.1⟩
  simp only [compact, if_neg (show ¬ n ≤ 0 by omega)]

theorem C5_count_from_last_witness :
    (1 ≤ 1 ∧ (0 : Int) < 6 ∧ (6 : Int) < 2 ^ 31) ∧
      ((compact (2 ^ 1) 6 wInput garbageMem (fun _ => 99) (fun _ => 55)).2 =
        toSigned
          (compactIndices (2 ^ 1) (6 : Int).toNat wInput garbageMem
              (fun _ => 55) ((6 : Int).toNat - 1) +
            compactBools (2 ^ 1) (6 : Int).toNat wInput (fun _ => 55)
              ((6 : Int).toNat - 1)) ∧
      (compact (2 ^ 1) 6 wInput garbageMem (fun _ => 99) (fun _ => 55)).2 =
        (((((List.range (6 : Int).toNat).map wInput).filter
          (fun v => decide (v ≠ 0))).length : Nat) : Int)) :=
  ⟨⟨le_rfl, by decide, by decide⟩,
    C5_count_from_last 1 6 wInput garbageMem (fun _ => 99) (fun _ => 55)
      le_rfl (by decide) (by decide)⟩

/-- C9: in `compact` with `n > 0`, every kept element's scatter destination
lies in `[0, keptCount)`, and the destinations of kept elements are strictly
increasing in the source index, so no two scatter writes collide and no kept
element lands outside the first `keptCount` output cells. -/
theorem C9_scatter_destinations (lb : Nat) (n : Int) (x : Nat → V)
    (mem : Nat → Lvl) (bInit : Nat → V) (hlb : 1 ≤ lb) (hn : 0 < n)
    (hsize : n < 2 ^ 31) :
    (∀ i, i < n.toNat → x i ≠ 0 →
      (compactIndices (2 ^ lb) n.toNat x mem bInit i).val <
        (((List.range n.toNat).map x).filter
          (fun v => decide (v ≠ 0))).length) ∧
    (∀ i i2, i < i2 → i2 < n.toNat → x i ≠ 0 → x i2 ≠ 0 →
      (compactIndices (2 ^ lb) n.toNat x mem bInit i).val <
        (compactIndices (2 ^ lb) n.toNat x mem bInit i2).val) := by
  have hil : ilog2ceil n.toNat ≤ 31 :=
    ilog2ceil_le (by omega : n.toNat ≤ 2 ^ 31)
  have hpad32 : (2 : Nat) ^ ilog2ceil n.toNat < 2 ^ 32 :=
    lt_of_le_of_lt (Nat.pow_le_pow_right (by omega) hil) (by norm_num)
  have hNpad : n.toNat ≤ 2 ^ ilog2ceil n.toNat := le_pow_ilog2ceil _
  have hfiltx : ((List.range n.toNat).map (paddedInput n.toNat x)).filter
      (fun v => decide (v ≠ 0)) =
      ((List.range n.toNat).map x).filter (fun v => decide (v ≠ 0)) := by
    rw [map_padded_eq n.toNat x n.toNat le_rfl]
  have hkept : ∀ i, i < n.toNat → x i ≠ 0 →
      (((List.range (i + 1)).map (paddedInput n.toNat x)).filter
        (fun v => decide (v ≠ 0))).length =
      (((List.range i).map (paddedInput n.toNat x)).filter
        (fun v => decide (v ≠ 0))).length + 1 := by
    intro i hi hx
    rw [filtlen_succ]
    have hpi : paddedInput n.toNat x i = x i := if_pos hi
    have hsing : List.filter (fun v => decide (v ≠ 0))
        [paddedInput n.toNat x i] = [paddedInput n.toNat x i] := by
      rw [hpi]
      simp [List.filter_cons, hx]
    rw [hsing]
    rfl
  constructor
  · intro i hi hx
    rw [compactIndices_val lb n.toNat hlb x mem bInit i (by omega) hpad32]
    have h1 := hkept i hi hx
    have h2 := filtlen_mono (paddedInput n.toNat x) (i + 1) n.toNat (by omega)
    rw [← hfiltx]
    omega
  · intro i i2 hii hi2 hx hx2
    rw [compactIndices_val lb n.toNat hlb x mem bInit i (by omega) hpad32,
      compactIndices_val lb n.toNat hlb x mem bInit i2 (by omega) hpad32]
    have h1 := hkept i (by omega) hx
    have h2 := filtlen_mono (paddedInput n.toNat x) (i + 1) i2 (by omega)
    omega

theorem C9_scatter_destinations_witness :
    (1 ≤ 1 ∧ (0 : Int) < 6 ∧ (6 : Int) < 2 ^ 31) ∧
      ((∀ i, i < (6 : Int).toNat → wInput i ≠ 0 →
        (compactIndices (2 ^ 1) (6 : Int).toNat wInput garbageMem
          (fun _ => 55) i).val <
          (((List.range (6 : Int).toNat).map wInput).filter
            (fun v => decide (v ≠ 0))).length) ∧
      (∀ i i2, i < i2 → i2 < (6 : Int).toNat → wInput i ≠ 0 →
        wInput i2 ≠ 0 →
        (compactIndices (2 ^ 1) (6 : Int).toNat wInput garbageMem
          (fun _ => 55) i).val <
          (compactIndices (2 ^ 1) (6 : Int).toNat wInput garbageMem
            (fun _ => 55) i2).val)) :=
  ⟨⟨le_rfl, by decide, by decide⟩,
    C9_scatter_destinations 1 6 wInput garbageMem (fun _ => 55) le_rfl
      (by decide) (by decide)⟩
